import Mathlib

/-!
A verification development for the merged_fs library (Go), which merges two
read-only filesystems (a primary A and a secondary B) into one fs.FS view.
The definitions below are a shallow embedding of src/merged_fs.go:

* Go errors are modelled by `GoError`, which records whether the error chain
  wraps fs.ErrNotExist or fs.ErrInvalid (the two classes `errors.Is` is
  called with in the source), plus the rendered message.
* An fs.File handle is modelled by `FileData`: the result of Stat, and, when
  the file implements fs.ReadDirFile, the entry list a ReadDir(-1) returns.
* An fs.FS is a function from path to Open result.
* `MergedFS`, `MergedFS.Open`, `MergedFS.validatePathPrefix`,
  `mergeDirEntries`, `getMergedDirEntry`, `baseName` and
  `MergedDirectory.ReadDir` are translated clause by clause from the source.
* Go strings.Split / strings.Join / fs.ValidPath are given executable
  char-list implementations with the same semantics, so that facts about
  path components can be proved by structural induction.
-/

/-- Go error values, abstracted to what the source branches on: whether the
error chain wraps fs.ErrNotExist, whether it wraps fs.ErrInvalid (together
these decide `isBadPathError`), and the rendered message. -/
structure GoError where
  isNotExist : Bool
  isInvalid : Bool
  msg : String
deriving DecidableEq, Repr

/-- fs.ErrNotExist. -/
def errNotExistBase : GoError := ⟨true, false, "file does not exist"⟩

/-- fs.ErrInvalid. -/
def errInvalidBase : GoError := ⟨false, true, "invalid argument"⟩

/-- fmt.Errorf with a %w verb wrapping error `e`: errors.Is follows the
wrapped error, the message gets a new front. -/
def wrapErr (pre : String) (e : GoError) : GoError :=
  ⟨e.isNotExist, e.isInvalid, pre ++ e.msg⟩

/-- fmt.Errorf rendering an error with %s only: nothing is wrapped, so the
result is in no error class. -/
def plainErr (m : String) : GoError := ⟨false, false, m⟩

/-- fs.PathError{Op, Path, Err}: errors.Is unwraps to Err. -/
def pathErr (op p : String) (e : GoError) : GoError :=
  ⟨e.isNotExist, e.isInvalid, op ++ " " ++ p ++ ": " ++ e.msg⟩

/-- io.EOF. -/
def eofErr : GoError := ⟨false, false, "EOF"⟩

/-- src/merged_fs.go `isBadPathError`: errors.Is(e, fs.ErrNotExist) ||
errors.Is(e, fs.ErrInvalid). -/
def isBadPathError (e : GoError) : Bool := e.isNotExist || e.isInvalid

deriving instance DecidableEq for Except

/-- The result of fs.FileInfo / fs.DirEntry.Info(): Name, IsDir, Mode
(mode and permission bits as one number), ModTime().Unix(), Size. -/
structure FileInfo where
  name : String
  isDir : Bool
  mode : Nat
  modTime : Int
  size : Int
deriving DecidableEq, Repr

/-- One fs.DirEntry of a directory listing: Name(), IsDir(), and the result
of Info(). -/
structure DirEntry where
  name : String
  isDir : Bool
  info : Except GoError FileInfo
deriving DecidableEq, Repr

/-- An opened fs.File: the result of Stat(), and, when the file implements
fs.ReadDirFile, the result its ReadDir(-1) would give (none when the handle
is not a ReadDirFile). -/
structure FileData where
  stat : Except GoError FileInfo
  entries : Option (Except GoError (List DirEntry))
deriving DecidableEq, Repr

/-- An fs.FS, reduced to what the merged FS consumes: Open by path. -/
def FS : Type := String → Except GoError FileData

/- ### Path strings: strings.Split, strings.Join, baseName, fs.ValidPath -/

/-- strings.Split(s, "/") on the character list: split at every slash;
the empty string yields one empty component. -/
def splitChars : List Char → List (List Char)
  | [] => [[]]
  | c :: rest =>
    if c = '/' then [] :: splitChars rest
    else
      match splitChars rest with
      | [] => [[c]]
      | g :: gs => (c :: g) :: gs

/-- strings.Split(s, "/"). -/
def splitSlash (s : String) : List String := (splitChars s.data).map String.mk

/-- strings.Join(groups, "/") on character lists. -/
def joinChars : List (List Char) → List Char
  | [] => []
  | [g] => g
  | g :: gs => g ++ '/' :: joinChars gs

/-- strings.Join(l, "/"). -/
def joinSlash (l : List String) : String :=
  String.mk (joinChars (l.map String.data))

/-- src/merged_fs.go `baseName`: the final element of the path, scanning the
characters from the end for a slash; paths of length at most one are
returned whole. Go scans bytes, but a slash byte in valid UTF-8 always is
the character so the two agree. -/
def baseName (path : String) : String :=
  if path.data.length ≤ 1 then path
  else String.mk ((path.data.reverse.takeWhile (fun c => c ≠ '/')).reverse)

/-- fs.ValidPath: "." is valid; otherwise the path must be nonempty and
every slash-separated element must be nonempty and differ from "." and
"..". (Go additionally requires valid UTF-8, which Lean strings always
are.) -/
def validPath (path : String) : Bool :=
  if path = "." then true
  else
    path ≠ "" &&
      (splitSlash path).all (fun c => c ≠ "" && c ≠ "." && c ≠ "..")

/- ### The merged directory: getMergedDirEntry, mergeDirEntries, ReadDir -/

/-- src/merged_fs.go `getMergedDirEntry`: a MergedDirectory used purely as a
DirEntry: Name() is A's name, IsDir() is always true, Info() returns the
object itself with A's mode, the later of the two modification times, and
size 0. -/
def getMergedDirEntry (a b : DirEntry) : Except GoError DirEntry :=
  match a.info with
  | .error e => .error (wrapErr "Failed getting info for file A: " e)
  | .ok infoA =>
    match b.info with
    | .error e => .error (wrapErr "Failed getting info for file B: " e)
    | .ok infoB =>
      .ok
        { name := a.name, isDir := true,
          info := .ok
            { name := a.name, isDir := true, mode := infoA.mode,
              modTime := max infoA.modTime infoB.modTime, size := 0 } }

/-- Placeholder DirEntry used only for an out-of-range list read, which the
loop invariants rule out (Go would panic there). -/
def noEntry : DirEntry := ⟨"", false, .error (plainErr "no entry")⟩

/-- The first loop of `mergeDirEntries`: add the entries from directory A,
failing on a duplicate name. `toReturn` is the accumulated result and `nc`
the nameConflicts map (name to index in toReturn), kept as an association
list; keys are only ever added when absent, matching the Go map. -/
def mergeLoopA :
    List DirEntry → List DirEntry → List (String × Nat) →
      Except GoError (List DirEntry × List (String × Nat))
  | [], toReturn, nc => .ok (toReturn, nc)
  | entry :: rest, toReturn, nc =>
    match List.lookup entry.name nc with
    | some _ => .error (plainErr ("Duplicate name in dir A: " ++ entry.name))
    | none =>
      mergeLoopA rest (toReturn ++ [entry]) (nc ++ [(entry.name, toReturn.length)])

/-- The second loop of `mergeDirEntries`: add the entries from directory B,
skipping a duplicate name unless both conflicting entries are directories,
in which case the existing entry is replaced by the merged DirEntry. -/
def mergeLoopB :
    List DirEntry → List DirEntry → List (String × Nat) →
      Except GoError (List DirEntry)
  | [], toReturn, _ => .ok toReturn
  | entry :: rest, toReturn, nc =>
    match List.lookup entry.name nc with
    | none =>
      mergeLoopB rest (toReturn ++ [entry]) (nc ++ [(entry.name, toReturn.length)])
    | some existingIndex =>
      let existingEntry := toReturn.getD existingIndex noEntry
      if !(existingEntry.isDir && entry.isDir) then mergeLoopB rest toReturn nc
      else
        match getMergedDirEntry existingEntry entry with
        | .error e =>
          .error (wrapErr ("Failed getting merged DirEntry for " ++ entry.name ++ ": ") e)
        | .ok me => mergeLoopB rest (toReturn.set existingIndex me) nc

/-- The comparison sort.Sort is run with: Less(a, b) = a.Name() < b.Name(),
as a total Boolean order on names by code point (equal to Go's byte order
on valid UTF-8). -/
def strLE : List Char → List Char → Bool
  | [], _ => true
  | _ :: _, [] => false
  | a :: as, b :: bs =>
    if a.toNat < b.toNat then true
    else if b.toNat < a.toNat then false
    else strLE as bs

/-- Name order on directory entries, used for the final sort. -/
def entryLE (x y : DirEntry) : Bool := strLE x.name.data y.name.data

/-- `entryLE` as a decidable relation, for the sort. -/
def entryLEP (x y : DirEntry) : Prop := entryLE x y = true

instance : DecidableRel entryLEP :=
  fun x y => inferInstanceAs (Decidable (entryLE x y = true))

/-- The core of src/merged_fs.go `mergeDirEntries`, acting on the two entry
lists that ReadDir(-1) produced: seed with A's entries (erroring on an
internal duplicate), fold in B's entries, then sort by name. Names in the
pre-sort list are unique, so the (unstable) sort.Sort of the source and the
insertion sort used here give the same list. -/
def mergeEntryLists (entriesA entriesB : List DirEntry) :
    Except GoError (List DirEntry) :=
  match mergeLoopA entriesA [] [] with
  | .error e => .error e
  | .ok (toReturn, nc) =>
    match mergeLoopB entriesB toReturn nc with
    | .error e => .error e
    | .ok res => .ok (res.insertionSort entryLEP)

/-- src/merged_fs.go `mergeDirEntries`: check that both files are
ReadDirFiles, read both listings with ReadDir(-1), then combine them. -/
def mergeDirEntries (a b : FileData) : Except GoError (List DirEntry) :=
  match a.entries with
  | none => .error (plainErr "File A isn't a directory")
  | some ra =>
    match b.entries with
    | none => .error (plainErr "File B isn't a directory")
    | some rb =>
      match ra with
      | .error e => .error (wrapErr "Failed reading entries from dir A: " e)
      | .ok entriesA =>
        match rb with
        | .error e => .error (wrapErr "Failed reading entries from dir B: " e)
        | .ok entriesB => mergeEntryLists entriesA entriesB

/-- The largest value of Go's int on a 64-bit platform. -/
def maxInt64 : Int := 2 ^ 63 - 1

/-- Two's-complement wrap into the signed 64-bit range, as Go's int
addition does on overflow. -/
def int64Wrap (x : Int) : Int := (x + 2 ^ 63) % 2 ^ 64 - 2 ^ 63

/-- src/merged_fs.go `MergedDirectory.ReadDir(n)`, as a function of the
entry list, the current read offset and n, returning the result and the new
read offset. Go's n is a signed 64-bit int, so `startEntry + n` is computed
with wrapping int64 addition; the only clamp in the source is
`endEntry > len(d.entries)`, so a wrapped-negative endEntry survives it and
the slice expression `d.entries[startEntry:endEntry]` then has its high
index below its low index, which is a run-time panic, modelled as `none`. -/
def mergedReadDir (entries : List DirEntry) (readOffset : Nat) (n : Int) :
    Option (Except GoError (List DirEntry) × Nat) :=
  if entries.length ≤ readOffset then
    if n ≤ 0 then some (.ok [], readOffset)
    else some (.error eofErr, readOffset)
  else
    let endEntry0 : Int := if n ≤ 0 then entries.length
      else int64Wrap (readOffset + n)
    let endEntry : Int :=
      if entries.length < endEntry0 then entries.length else endEntry0
    if endEntry < readOffset then none
    else some (.ok ((entries.drop readOffset).take (endEntry - readOffset).toNat),
      endEntry.toNat)

/- ### MergedFS: the composition node -/

/-- src/merged_fs.go `MergedFS`: the two filesystems and the prefix cache.
The map[string]bool is kept as the list of keys set to true (insertion adds
a key at most once, matching the Go map). `pathCachingEnabled` is modelled
from the spec: the UsePathCaching toggle is exercised by the repository's
tests but its implementation is not under src/; per spec section 4.3, when
caching is disabled the cache is bypassed and not written. The code under
src/ always caches, which is the flag fixed to true. -/
structure MergedFS where
  A : FS
  B : FS
  knownOKPrefixes : List String
  pathCachingEnabled : Bool

/-- src/merged_fs.go `NewMergedFS`: fresh node, empty cache. -/
def NewMergedFS (a b : FS) : MergedFS :=
  ⟨a, b, [], true⟩

/-- Modelled from the spec: the UsePathCaching(enabled) toggle called by the
repository's tests is not part of src/. Per spec section 4.3, disabling
caching clears all existing entries immediately; re-enabling starts fresh
(disabled mode never writes, so nothing survives a disable/enable cycle). -/
def MergedFS.UsePathCaching (m : MergedFS) (enabled : Bool) : MergedFS :=
  { m with pathCachingEnabled := enabled,
           knownOKPrefixes := if enabled then m.knownOKPrefixes else [] }

/-- Reading the cache: a Go map read `m.knownOKPrefixes[p]`; bypassed
(always false) when caching is disabled. -/
def cacheGet (m : MergedFS) (p : String) : Bool :=
  m.pathCachingEnabled && m.knownOKPrefixes.contains p

/-- Writing the cache: `m.knownOKPrefixes[p] = true`; a no-op when caching
is disabled. -/
def cacheAdd (m : MergedFS) (p : String) : MergedFS :=
  if m.pathCachingEnabled then
    if m.knownOKPrefixes.contains p then m
    else { m with knownOKPrefixes := m.knownOKPrefixes ++ [p] }
  else m

/-- One step of the prefix accumulation: strings.Join(components[0:i+1], "/")
is the previous join, a slash, and the next component (just the component
for i = 0). -/
def stepJoin (acc : Option String) (c : String) : String :=
  match acc with
  | none => c
  | some p => p ++ "/" ++ c

/-- The error returned when opening a prefix in A fails with an error
outside the bad-path class: `fmt.Errorf("%w: Error opening %s in A: %s",
fs.ErrNotExist, path, e)` wraps fs.ErrNotExist. -/
def errOpenFatalA (path : String) (e : GoError) : GoError :=
  ⟨true, false, "file does not exist: Error opening " ++ path ++ " in A: " ++ e.msg⟩

/-- The error returned when a prefix exists in A but Stat fails: rendered
with %s, wrapping nothing. -/
def errStatA (e : GoError) : GoError :=
  plainErr ("Couldn't stat file in A: " ++ e.msg)

/-- The error returned when a prefix of the path is a non-directory in A:
wraps fs.ErrNotExist. -/
def errFileInA (pfx : String) : GoError :=
  ⟨true, false, "file does not exist: " ++ pfx ++ " is a file in A"⟩

/-- The loop of src/merged_fs.go `validatePathPrefix`: walk the components
in order; for each prefix, first consult the cache under the full original
path (the source checks the full path, not the prefix, inside the loop),
then open the prefix in A. Not found: mark prefix and path OK, done. Found
a non-directory: fail wrapping fs.ErrNotExist. Open or Stat failed
otherwise: fail as the source does. Found a directory: mark the prefix OK
and continue. -/
def validateLoop (m : MergedFS) (path : String) :
    Option String → List String → Option GoError × MergedFS
  | _, [] => (none, m)
  | acc, c :: rest =>
    let pfx := stepJoin acc c
    if cacheGet m path then (none, m)
    else
      match m.A pfx with
      | .error e =>
        if isBadPathError e then
          (none, cacheAdd (cacheAdd m pfx) path)
        else
          (some (errOpenFatalA path e), m)
      | .ok f =>
        match f.stat with
        | .error e => (some (errStatA e), m)
        | .ok info =>
          if !info.isDir then
            (some (errFileInA pfx), m)
          else validateLoop (cacheAdd m pfx) path (some pfx) rest

/-- src/merged_fs.go `MergedFS.validatePathPrefix`. -/
def MergedFS.validatePathPrefix (m : MergedFS) (path : String) :
    Option GoError × MergedFS :=
  if cacheGet m path then (none, m)
  else validateLoop m path none (splitSlash path)

/-- src/merged_fs.go `MergedFS.newMergedDirectory`: stat both directory
handles, take the later modification time, merge the entries, and build the
MergedDirectory file: its Stat returns itself (IsDir always true, A's mode,
size 0, name the base name of the path), its ReadDir serves the merged
entries. -/
def newMergedDirectory (a b : FileData) (path : String) :
    Except GoError FileData :=
  match a.stat with
  | .error e =>
    .error (wrapErr ("Couldn't stat dir " ++ path ++ " from FS A: ") e)
  | .ok sA =>
    match b.stat with
    | .error e =>
      .error (wrapErr ("Couldn't stat dir " ++ path ++ " from FS B: ") e)
    | .ok sB =>
      match mergeDirEntries a b with
      | .error e => .error (wrapErr "Error merging directory contents: " e)
      | .ok entries =>
        .ok
          { stat := .ok
              { name := baseName path, isDir := true, mode := sA.mode,
                modTime := max sA.modTime sB.modTime, size := 0 },
            entries := some (.ok entries) }

/-- src/merged_fs.go `MergedFS.Open`, returning the result and the node
with its possibly-updated prefix cache. -/
def MergedFS.Open (m : MergedFS) (path : String) :
    Except GoError FileData × MergedFS :=
  if !validPath path then
    (.error (pathErr "open" "path" errInvalidBase), m)
  else
    match m.A path with
    | .ok fA =>
      match fA.stat with
      | .error e =>
        (.error (wrapErr ("Couldn't stat " ++ path ++ " in FS A: ") e), m)
      | .ok fileInfoA =>
        if !fileInfoA.isDir then (.ok fA, m)
        else
          match m.B path with
          | .error e =>
            if isBadPathError e then (.ok fA, m)
            else (.error (wrapErr ("Couldn't open " ++ path ++ " in FS B: ") e), m)
          | .ok fB =>
            match fB.stat with
            | .error e =>
              (.error (wrapErr ("Couldn't stat " ++ path ++ " in FS B: ") e), m)
            | .ok fileInfoB =>
              if !fileInfoB.isDir then (.ok fA, m)
              else (newMergedDirectory fA fB path, m)
    | .error e =>
      if !isBadPathError e then
        (.error (wrapErr ("Couldn't open " ++ path ++ " in FS A: ") e), m)
      else
        match m.validatePathPrefix path with
        | (some ve, m2) => (.error (pathErr "open" path ve), m2)
        | (none, m2) => (m.B path, m2)

/- ### The name order is total and transitive -/

theorem strLE_trans (a b c : List Char) (h1 : strLE a b = true)
    (h2 : strLE b c = true) : strLE a c = true := by
  induction a generalizing b c with
  | nil => rfl
  | cons x xs ih =>
    cases b with
    | nil => simp [strLE] at h1
    | cons y ys =>
      cases c with
      | nil => simp [strLE] at h2
      | cons z zs =>
        simp only [strLE] at h1 h2 ⊢
        split_ifs at h1 h2 ⊢ <;>
          first
          | rfl
          | omega
          | (exact ih _ _ h1 h2)

theorem strLE_total (a b : List Char) : strLE a b = true ∨ strLE b a = true := by
  induction a generalizing b with
  | nil => left; rfl
  | cons x xs ih =>
    cases b with
    | nil => right; rfl
    | cons y ys =>
      simp only [strLE]
      rcases ih ys with h | h <;> split_ifs <;> simp_all

instance : IsTrans DirEntry entryLEP :=
  ⟨fun _ _ _ h1 h2 => strLE_trans _ _ _ h1 h2⟩

instance : IsTotal DirEntry entryLEP :=
  ⟨fun x y => strLE_total x.name.data y.name.data⟩

/- ### Claim C1 -/

/-- Claim C1: for every path P and every composition (A primary, B
secondary): if opening P in A succeeds and A reports P as a non-directory,
then MergedFS.Open(P) returns A's handle for P without consulting B at all
(the node and hence B are arbitrary here, and neither the result nor the
cache depends on them), regardless of what B contains at P. -/
theorem claim_C1_file_in_A_masks_B (m : MergedFS) (path : String)
    (f : FileData) (info : FileInfo) (hv : validPath path = true)
    (hA : m.A path = .ok f) (hs : f.stat = .ok info)
    (hd : info.isDir = false) :
    m.Open path = (.ok f, m) := by
  simp [MergedFS.Open, hv, hA, hs, hd]

/-- A regular file at path "a" in the primary, used by witnesses. -/
def wFileA : FileData := ⟨.ok ⟨"a", false, 420, 100, 2⟩, none⟩

/-- Not-found error used by witness filesystems. -/
def wNF : GoError := ⟨true, false, "file does not exist"⟩

/-- Witness primary: only the regular file "a". -/
def wFsA : FS := fun p => if p = "a" then .ok wFileA else .error wNF

/-- Witness secondary: a whole directory subtree at "a". -/
def wFsB : FS := fun p =>
  if p = "a" then
    .ok ⟨.ok ⟨"a", true, 493, 200, 0⟩,
      some (.ok [⟨"y", false, .ok ⟨"y", false, 420, 200, 1⟩⟩])⟩
  else if p = "a/y" then .ok ⟨.ok ⟨"y", false, 420, 200, 1⟩, none⟩
  else .error wNF

theorem claim_C1_witness :
    (NewMergedFS wFsA wFsB).Open "a" = (.ok wFileA, NewMergedFS wFsA wFsB) :=
  claim_C1_file_in_A_masks_B _ _ _ ⟨"a", false, 420, 100, 2⟩ rfl rfl rfl rfl

/- ### Claim C9 -/

/-- Numeric value of maxInt64, for omega. -/
theorem maxInt64_eq : maxInt64 = 9223372036854775807 := by
  norm_num [maxInt64]

/-- In-range integers are fixed by the 64-bit wrap. -/
theorem int64Wrap_eq_self (x : Int) (h0 : 0 ≤ x) (h1 : x ≤ maxInt64) :
    int64Wrap x = x := by
  rw [maxInt64_eq] at h1
  norm_num [int64Wrap]
  omega

/-- An integer just above the signed 64-bit range wraps to a value 2^64
lower (and hence negative). -/
theorem int64Wrap_overflow (x : Int) (h0 : maxInt64 < x)
    (h1 : x < 18446744073709551616) :
    int64Wrap x = x - 18446744073709551616 := by
  rw [maxInt64_eq] at h0
  norm_num [int64Wrap]
  omega

/-- Witness entries for the pagination claim. -/
def wP : DirEntry := ⟨"p", false, .ok ⟨"p", false, 420, 1, 1⟩⟩

/-- Witness entries for the pagination claim. -/
def wQ : DirEntry := ⟨"q", false, .ok ⟨"q", false, 420, 2, 1⟩⟩

/-- Witness entries for the pagination claim. -/
def wR : DirEntry := ⟨"r", true, .ok ⟨"r", true, 493, 3, 0⟩⟩

/-- Claim C9, counterexample: the claim asserts that ReadDir(n) with n > 0
and entries remaining returns the min(n, remaining) entries starting at the
cursor, for every positive n. For cursor 1 and n = maxInt64 (a value
representable in Go's int parameter), startEntry + n overflows int64 and
wraps negative, the endEntry > len clamp does not fire, and the slice
expression panics instead of returning the predicted min(n, remaining)
entries. -/
theorem claim_C9_counterexample :
    mergedReadDir [wP, wQ] 1 maxInt64 = none
    ∧ mergedReadDir [wP, wQ] 1 maxInt64 ≠
        some (.ok (([wP, wQ].drop 1).take
            (min maxInt64.toNat ([wP, wQ].length - 1))),
          1 + min maxInt64.toNat ([wP, wQ].length - 1)) := by
  decide

/-- Claim C9 (amended): for a merged directory handle with entry list
`entries` and read cursor c, with the entry count and n representable as
64-bit ints as they are in Go: ReadDir(n) with n > 0, entries remaining and
c + n within the int64 range returns the min(n, remaining) entries starting
at c and advances the cursor by that amount; with n > 0 and entries
remaining but c + n overflowing int64, the call panics instead of returning
entries; n ≤ 0 returns all remaining entries at once (cursor to the end);
n > 0 at the end returns io.EOF; n ≤ 0 at the end returns an empty listing
with no error. -/
theorem claim_C9_amended_pagination (entries : List DirEntry) (c : Nat) (n : Int)
    (hlen : (entries.length : Int) ≤ maxInt64) (hn : n ≤ maxInt64) :
    (0 < n → c < entries.length → (c : Int) + n ≤ maxInt64 →
      mergedReadDir entries c n =
        some (.ok ((entries.drop c).take (min n.toNat (entries.length - c))),
          c + min n.toNat (entries.length - c)))
    ∧ (0 < n → c < entries.length → maxInt64 < (c : Int) + n →
      mergedReadDir entries c n = none)
    ∧ (n ≤ 0 → c < entries.length →
      mergedReadDir entries c n = some (.ok (entries.drop c), entries.length))
    ∧ (0 < n → entries.length ≤ c →
      mergedReadDir entries c n = some (.error eofErr, c))
    ∧ (n ≤ 0 → entries.length ≤ c →
      mergedReadDir entries c n = some (.ok [], c)) := by
  rw [maxInt64_eq] at hlen hn
  refine ⟨fun hpos hclt hno => ?_, fun hpos hclt hov => ?_, fun hnp hclt => ?_,
    fun hpos hend => ?_, fun hnp hend => ?_⟩
  · rw [maxInt64_eq] at hno
    have hw : int64Wrap ((c : Int) + n) = (c : Int) + n :=
      int64Wrap_eq_self _ (by omega) (by rw [maxInt64_eq]; omega)
    simp only [mergedReadDir, if_neg (show ¬ entries.length ≤ c by omega),
      if_neg (show ¬ n ≤ 0 by omega), hw]
    by_cases hcase : (entries.length : Int) < (c : Int) + n
    · rw [if_pos hcase,
        if_neg (show ¬ (entries.length : Int) < (c : Nat) by omega)]
      have h1 : ((entries.length : Int) - (c : Nat)).toNat =
          min n.toNat (entries.length - c) := by omega
      have h2 : ((entries.length : Int)).toNat =
          c + min n.toNat (entries.length - c) := by omega
      rw [h1, h2]
    · rw [if_neg hcase,
        if_neg (show ¬ ((c : Int) + n) < (c : Nat) by omega)]
      have h1 : (((c : Int) + n) - (c : Nat)).toNat =
          min n.toNat (entries.length - c) := by omega
      have h2 : (((c : Int) + n)).toNat =
          c + min n.toNat (entries.length - c) := by omega
      rw [h1, h2]
  · rw [maxInt64_eq] at hov
    have hw : int64Wrap ((c : Int) + n) = (c : Int) + n - 18446744073709551616 :=
      int64Wrap_overflow _ (by rw [maxInt64_eq]; omega) (by omega)
    simp only [mergedReadDir, if_neg (show ¬ entries.length ≤ c by omega),
      if_neg (show ¬ n ≤ 0 by omega), hw]
    rw [if_neg (show ¬ (entries.length : Int) <
        (c : Int) + n - 18446744073709551616 by omega),
      if_pos (show (c : Int) + n - 18446744073709551616 < (c : Nat) by omega)]
  · simp only [mergedReadDir, if_neg (show ¬ entries.length ≤ c by omega),
      if_pos hnp]
    rw [if_neg (show ¬ (entries.length : Int) < (entries.length : Int) by omega),
      if_neg (show ¬ (entries.length : Int) < (c : Nat) by omega)]
    have h1 : ((entries.length : Int) - (c : Nat)).toNat = entries.length - c := by
      omega
    have h2 : ((entries.length : Int)).toNat = entries.length := by omega
    rw [h1, h2, List.take_of_length_le (by simp)]
  · simp only [mergedReadDir, if_pos hend, if_neg (show ¬ n ≤ 0 by omega)]
  · simp only [mergedReadDir, if_pos hend, if_pos hnp]

theorem claim_C9_witness :
    mergedReadDir [wP, wQ, wR] 1 2 = some (.ok [wQ, wR], 3)
    ∧ mergedReadDir [wP, wQ, wR] 1 maxInt64 = none
    ∧ mergedReadDir [wP, wQ, wR] 1 0 = some (.ok [wQ, wR], 3)
    ∧ mergedReadDir [wP, wQ, wR] 3 5 = some (.error eofErr, 3)
    ∧ mergedReadDir [wP, wQ, wR] 3 (-1) = some (.ok [], 3) := by
  refine ⟨?_, ?_, ?_, ?_, ?_⟩
  · rw [(claim_C9_amended_pagination [wP, wQ, wR] 1 2 (by decide)
      (by decide)).1 (by decide) (by decide) (by decide)]
    decide
  · exact (claim_C9_amended_pagination [wP, wQ, wR] 1 maxInt64 (by decide)
      (by decide)).2.1 (by decide) (by decide) (by decide)
  · rw [(claim_C9_amended_pagination [wP, wQ, wR] 1 0 (by decide)
      (by decide)).2.2.1 (by decide) (by decide)]
    decide
  · exact (claim_C9_amended_pagination [wP, wQ, wR] 3 5 (by decide)
      (by decide)).2.2.2.1 (by decide) (by decide)
  · exact (claim_C9_amended_pagination [wP, wQ, wR] 3 (-1) (by decide)
      (by decide)).2.2.2.2 (by decide) (by decide)

/- ### The merge loops: invariants -/

/-- The names of a list of entries, in order. -/
def namesOf (l : List DirEntry) : List String := l.map DirEntry.name

/-- Index of the first occurrence of a name. -/
def idxOf? (n : String) : List String → Option Nat
  | [] => none
  | m :: rest => if m = n then some 0 else (idxOf? n rest).map (· + 1)

/-- The nameConflicts map is faithful: it maps each name to the index of
its (unique) occurrence in the accumulated result. -/
def ncInv (toReturn : List DirEntry) (nc : List (String × Nat)) : Prop :=
  ∀ n, List.lookup n nc = idxOf? n (namesOf toReturn)

theorem idxOf?_eq_none {n : String} {l : List String} :
    idxOf? n l = none ↔ n ∉ l := by
  induction l with
  | nil => simp [idxOf?]
  | cons m rest ih =>
    by_cases h : m = n <;> simp [idxOf?, h, ih] <;> tauto

theorem idxOf?_some {n : String} {l : List String} {i : Nat}
    (h : idxOf? n l = some i) : l[i]? = some n := by
  induction l generalizing i with
  | nil => simp [idxOf?] at h
  | cons m rest ih =>
    by_cases hm : m = n
    · simp [idxOf?, hm] at h
      subst hm
      simp [← h]
    · simp [idxOf?, hm] at h
      obtain ⟨j, hj, rfl⟩ := h
      simpa using ih hj

theorem idxOf?_append (n : String) (xs : List String) (m : String) :
    idxOf? n (xs ++ [m]) =
      match idxOf? n xs with
      | some i => some i
      | none => if m = n then some xs.length else none := by
  induction xs with
  | nil => by_cases h : m = n <;> simp [idxOf?, h]
  | cons x rest ih =>
    by_cases hx : x = n
    · simp [idxOf?, hx]
    · simp only [List.cons_append, idxOf?, hx, if_false, List.append_eq]
      rw [ih]
      cases hrest : idxOf? n rest <;> by_cases h : m = n <;>
        simp [hrest, h, List.length_cons]

theorem idxOf?_of_nodup {l : List String} {j : Nat} {n : String}
    (hnd : l.Nodup) (h : l[j]? = some n) : idxOf? n l = some j := by
  induction l generalizing j with
  | nil => simp at h
  | cons m rest ih =>
    cases j with
    | zero =>
      simp at h
      simp [idxOf?, h]
    | succ j =>
      simp at h
      have hmem : n ∈ rest := List.getElem?_mem h
      have hmn : m ≠ n := by
        intro he
        exact (List.nodup_cons.mp hnd).1 (he ▸ hmem)
      simp [idxOf?, hmn, ih (List.nodup_cons.mp hnd).2 h]

theorem lookup_append (n : String) (nc : List (String × Nat)) (k : String) (v : Nat) :
    List.lookup n (nc ++ [(k, v)]) =
      match List.lookup n nc with
      | some i => some i
      | none => if k = n then some v else none := by
  induction nc with
  | nil =>
    by_cases h : n = k
    · subst h; simp [List.lookup]
    · have hk : ¬ k = n := fun hk => h hk.symm
      have hb : (n == k) = false := by simp [h]
      simp [List.lookup, hb, hk]
  | cons p rest ih =>
    obtain ⟨pk, pv⟩ := p
    by_cases hp : n = pk
    · subst hp; simp [List.lookup]
    · have hb : (n == pk) = false := by simp [hp]
      simp [List.lookup, hb, ih]

theorem set_eq_self_of_getElem? {α : Type} :
    ∀ (l : List α) (i : Nat) (a : α), l[i]? = some a → l.set i a = l
  | [], i, a, h => by simp at h
  | x :: xs, 0, a, h => by simp_all
  | x :: xs, i + 1, a, h => by
    simp only [List.getElem?_cons_succ] at h
    simp [List.set, set_eq_self_of_getElem? xs i a h]

theorem namesOf_set (l : List DirEntry) (i : Nat) (e : DirEntry) :
    namesOf (l.set i e) = (namesOf l).set i e.name := by
  simp [namesOf, List.map_set]

theorem namesOf_append (l : List DirEntry) (e : DirEntry) :
    namesOf (l ++ [e]) = namesOf l ++ [e.name] := by
  simp [namesOf]

theorem mem_set_of_ne {α : Type} {l : List α} {j i : Nat} {e a : α}
    (h : l[j]? = some e) (hne : j ≠ i) : e ∈ l.set i a := by
  have : (l.set i a)[j]? = some e := by
    rw [List.getElem?_set_ne (by omega)]
    exact h
  exact List.getElem?_mem this

theorem getElem?_set_self' {α : Type} {l : List α} {i : Nat} (h : i < l.length)
    (a : α) : (l.set i a)[i]? = some a := by
  rw [List.getElem?_eq_getElem (by simpa using h)]
  simp [List.getElem_set]

theorem mem_set_sub {α : Type} {l : List α} {i : Nat} {a : α} :
    ∀ x ∈ l.set i a, x = a ∨ x ∈ l := by
  intro x hx
  obtain ⟨j, hj⟩ := List.mem_iff_getElem?.mp hx
  by_cases hji : i = j
  · subst hji
    by_cases hlen : i < l.length
    · rw [getElem?_set_self' hlen] at hj
      injection hj with h
      exact Or.inl h.symm
    · rw [List.set_eq_of_length_le (by omega)] at hj
      exact Or.inr (List.getElem?_mem hj)
  · rw [List.getElem?_set_ne hji] at hj
    exact Or.inr (List.getElem?_mem hj)

theorem ncInv_nil : ncInv [] [] := by
  intro n
  simp [List.lookup, idxOf?, namesOf]

theorem ncInv_append {tr : List DirEntry} {nc : List (String × Nat)}
    (h : ncInv tr nc) (e : DirEntry) :
    ncInv (tr ++ [e]) (nc ++ [(e.name, tr.length)]) := by
  intro n
  rw [lookup_append, namesOf_append, idxOf?_append, h n]
  have hlen : (namesOf tr).length = tr.length := by simp [namesOf]
  cases idxOf? n (namesOf tr) <;> by_cases hn : e.name = n <;> simp [hn, hlen]

/-- A name whose lookup in the conflict map succeeds names a unique entry of
the accumulated result, and the Go indexed read returns exactly it. -/
theorem lookup_conflict {tr : List DirEntry} {nc : List (String × Nat)}
    (hinv : ncInv tr nc) {n : String} {i : Nat}
    (h : List.lookup n nc = some i) :
    ∃ ex, tr[i]? = some ex ∧ ex.name = n ∧ tr.getD i noEntry = ex ∧ i < tr.length := by
  rw [hinv n] at h
  have h2 := idxOf?_some h
  rw [namesOf] at h2
  rw [List.getElem?_map] at h2
  cases he : tr[i]? with
  | none => rw [he] at h2; cases h2
  | some ex =>
    rw [he] at h2
    have hname : ex.name = n := by
      simpa using h2
    have hlen : i < tr.length := by
      by_contra hc
      rw [List.getElem?_eq_none (by omega)] at he
      cases he
    refine ⟨ex, rfl, hname, ?_, hlen⟩
    rw [List.getD_eq_getElem?_getD, he]
    rfl

theorem lookup_none_not_mem {tr : List DirEntry} {nc : List (String × Nat)}
    (hinv : ncInv tr nc) {n : String}
    (h : List.lookup n nc = none) : n ∉ namesOf tr := by
  rw [hinv n] at h
  exact idxOf?_eq_none.mp h

theorem mem_names_of_mem {tr : List DirEntry} {a : DirEntry} (h : a ∈ tr) :
    a.name ∈ namesOf tr :=
  List.mem_map_of_mem DirEntry.name h

/-- With unique names, an entry of the list is determined by its name. -/
theorem name_unique {tr : List DirEntry} (hnd : (namesOf tr).Nodup)
    {i : Nat} {ex x : DirEntry} (hi : tr[i]? = some ex) (hx : x ∈ tr)
    (hname : x.name = ex.name) : x = ex := by
  obtain ⟨j, hj⟩ := List.mem_iff_getElem?.mp hx
  have hni : (namesOf tr)[i]? = some ex.name := by
    rw [namesOf, List.getElem?_map, hi]; rfl
  have hnj : (namesOf tr)[j]? = some ex.name := by
    rw [namesOf, List.getElem?_map, hj, ← hname]; rfl
  have h1 := idxOf?_of_nodup hnd hni
  have h2 := idxOf?_of_nodup hnd hnj
  have hij : i = j := by rw [h1] at h2; simpa using h2
  subst hij
  rw [hi] at hj
  injection hj with h
  exact h.symm

/-- The reconciled entry built for a directory/directory name conflict:
A's name, A's mode, the later modification time, marked as a directory. -/
def mergedVal (a : DirEntry) (ia ib : FileInfo) : DirEntry :=
  ⟨a.name, true, .ok ⟨a.name, true, ia.mode, max ia.modTime ib.modTime, 0⟩⟩

theorem getMergedDirEntry_ok {a b me : DirEntry} :
    getMergedDirEntry a b = .ok me ↔
      ∃ ia ib, a.info = .ok ia ∧ b.info = .ok ib ∧ me = mergedVal a ia ib := by
  unfold getMergedDirEntry
  cases ha : a.info <;> cases hb : b.info <;> simp [mergedVal, eq_comm]

/-- Successful A loop: with no duplicate names (relative to what is already
accumulated), all of A's entries are appended in order and the conflict map
stays faithful. -/
theorem mergeLoopA_ok :
    ∀ (as tr : List DirEntry) (nc : List (String × Nat)),
      ncInv tr nc → (namesOf (tr ++ as)).Nodup →
      ∃ nc2, mergeLoopA as tr nc = .ok (tr ++ as, nc2) ∧ ncInv (tr ++ as) nc2 := by
  intro as
  induction as with
  | nil =>
    intro tr nc hinv _
    exact ⟨nc, by simp [mergeLoopA], by simpa using hinv⟩
  | cons e rest ih =>
    intro tr nc hinv hnodup
    have hnames : namesOf (tr ++ e :: rest) = namesOf tr ++ e.name :: namesOf rest := by
      simp [namesOf]
    rw [hnames] at hnodup
    have hnot : e.name ∉ namesOf tr := by
      intro hmem
      have hd := List.disjoint_of_nodup_append hnodup
      exact hd hmem (List.mem_cons_self _ _)
    have hlook : List.lookup e.name nc = none := by
      rw [hinv e.name]
      exact idxOf?_eq_none.mpr hnot
    have hstep : mergeLoopA (e :: rest) tr nc =
        mergeLoopA rest (tr ++ [e]) (nc ++ [(e.name, tr.length)]) := by
      simp [mergeLoopA, hlook]
    rw [hstep]
    have hinv2 := ncInv_append hinv e
    have hnodup2 : (namesOf ((tr ++ [e]) ++ rest)).Nodup := by
      have : (tr ++ [e]) ++ rest = tr ++ e :: rest := by simp
      rw [this, hnames]
      exact hnodup
    obtain ⟨nc2, heq, hinv3⟩ := ih (tr ++ [e]) (nc ++ [(e.name, tr.length)]) hinv2 hnodup2
    have hassoc : (tr ++ [e]) ++ rest = tr ++ e :: rest := by simp
    rw [hassoc] at heq hinv3
    exact ⟨nc2, heq, hinv3⟩

/-- Failing A loop: a duplicate name inside A's listing makes the first
loop fail with the duplicate-name error. -/
theorem mergeLoopA_err :
    ∀ (as tr : List DirEntry) (nc : List (String × Nat)),
      ncInv tr nc → (namesOf tr).Nodup → ¬ (namesOf tr ++ namesOf as).Nodup →
      ∃ n, n ∈ namesOf as ∧
        mergeLoopA as tr nc = .error (plainErr ("Duplicate name in dir A: " ++ n)) := by
  intro as
  induction as with
  | nil =>
    intro tr nc _ hnd hnot
    exact absurd hnd (by simpa [namesOf] using hnot)
  | cons e rest ih =>
    intro tr nc hinv hnd hnot
    by_cases hmem : e.name ∈ namesOf tr
    · have hlook : ∃ i, List.lookup e.name nc = some i := by
        rw [hinv e.name]
        cases hcase : idxOf? e.name (namesOf tr) with
        | none => exact absurd (idxOf?_eq_none.mp hcase) (by simpa using hmem)
        | some i => exact ⟨i, rfl⟩
      obtain ⟨i, hi⟩ := hlook
      refine ⟨e.name, by simp [namesOf], ?_⟩
      simp [mergeLoopA, hi]
    · have hlook : List.lookup e.name nc = none := by
        rw [hinv e.name]
        exact idxOf?_eq_none.mpr hmem
      have hstep : mergeLoopA (e :: rest) tr nc =
          mergeLoopA rest (tr ++ [e]) (nc ++ [(e.name, tr.length)]) := by
        simp [mergeLoopA, hlook]
      rw [hstep]
      have hnd2 : (namesOf (tr ++ [e])).Nodup := by
        rw [namesOf_append, List.nodup_append]
        refine ⟨hnd, List.nodup_singleton _, fun x hx hx2 => ?_⟩
        rcases List.mem_singleton.mp hx2 with rfl
        exact hmem hx
      have hnot2 : ¬ (namesOf (tr ++ [e]) ++ namesOf rest).Nodup := by
        rw [namesOf_append]
        intro hcontra
        apply hnot
        simpa [namesOf] using hcontra
      obtain ⟨n, hn, heq⟩ := ih (tr ++ [e]) (nc ++ [(e.name, tr.length)])
        (ncInv_append hinv e) hnd2 hnot2
      exact ⟨n, by simp [namesOf] at hn ⊢; exact Or.inr hn, heq⟩

theorem names_getElem? {tr : List DirEntry} {i : Nat} {ex : DirEntry}
    (h : tr[i]? = some ex) : (namesOf tr)[i]? = some ex.name := by
  rw [namesOf, List.getElem?_map, h]
  rfl

theorem names_set_eq {tr : List DirEntry} {i : Nat} {ex me : DirEntry}
    (hi : tr[i]? = some ex) (hname : me.name = ex.name) :
    namesOf (tr.set i me) = namesOf tr := by
  rw [namesOf_set]
  apply set_eq_self_of_getElem?
  rw [hname]
  exact names_getElem? hi

theorem ncInv_set {tr : List DirEntry} {nc : List (String × Nat)} {i : Nat}
    {me : DirEntry} (hinv : ncInv tr nc)
    (hnames : namesOf (tr.set i me) = namesOf tr) : ncInv (tr.set i me) nc :=
  fun n => by rw [hnames]; exact hinv n

theorem nodup_append_singleton {tr : List DirEntry} {e : DirEntry}
    (hnd : (namesOf tr).Nodup) (hmem : e.name ∉ namesOf tr) :
    (namesOf (tr ++ [e])).Nodup := by
  rw [namesOf_append, List.nodup_append]
  refine ⟨hnd, List.nodup_singleton _, fun x hx hx2 => ?_⟩
  rcases List.mem_singleton.mp hx2 with rfl
  exact hmem hx

theorem lookup_of_mem {tr : List DirEntry} {nc : List (String × Nat)}
    {a : DirEntry} (hinv : ncInv tr nc) (hnd : (namesOf tr).Nodup)
    (ha : a ∈ tr) :
    ∃ j, tr[j]? = some a ∧ List.lookup a.name nc = some j := by
  obtain ⟨j, hj⟩ := List.mem_iff_getElem?.mp ha
  exact ⟨j, hj, by rw [hinv]; exact idxOf?_of_nodup hnd (names_getElem? hj)⟩

theorem getMergedDirEntry_val {ex e : DirEntry} {ia ib : FileInfo}
    (hia : ex.info = .ok ia) (hib : e.info = .ok ib) :
    getMergedDirEntry ex e = .ok (mergedVal ex ia ib) := by
  simp [getMergedDirEntry, hia, hib, mergedVal]

/-- The B loop never fails when A's accumulated names are unique and every
directory entry in sight can produce its info: duplicate names inside B are
not an error. -/
theorem mergeLoopB_ok :
    ∀ (bs tr : List DirEntry) (nc : List (String × Nat)),
      ncInv tr nc → (namesOf tr).Nodup →
      (∀ x ∈ tr, x.isDir = true → ∃ fi, x.info = .ok fi) →
      (∀ x ∈ bs, x.isDir = true → ∃ fi, x.info = .ok fi) →
      ∃ res, mergeLoopB bs tr nc = .ok res := by
  intro bs
  induction bs with
  | nil => exact fun tr nc _ _ _ _ => ⟨tr, rfl⟩
  | cons e rest ih =>
    intro tr nc hinv hnd hitr hibs
    cases hl : List.lookup e.name nc with
    | none =>
      have hstep : mergeLoopB (e :: rest) tr nc =
          mergeLoopB rest (tr ++ [e]) (nc ++ [(e.name, tr.length)]) := by
        simp [mergeLoopB, hl]
      rw [hstep]
      refine ih (tr ++ [e]) _ (ncInv_append hinv e)
        (nodup_append_singleton hnd (lookup_none_not_mem hinv hl))
        (fun x hx hxd => ?_) (fun x hx => hibs x (List.mem_cons_of_mem _ hx))
      rcases List.mem_append.mp hx with hx | hx
      · exact hitr x hx hxd
      · rcases List.mem_singleton.mp hx with rfl
        exact hibs x (List.mem_cons_self _ _) hxd
    | some i =>
      obtain ⟨ex, hex, hexname, hgetd, hlen⟩ := lookup_conflict hinv hl
      by_cases hdir : (ex.isDir && e.isDir) = true
      · obtain ⟨hexd, hed⟩ := Bool.and_eq_true_iff.mp hdir
        obtain ⟨ia, hia⟩ := hitr ex (List.getElem?_mem hex) hexd
        obtain ⟨ib, hib⟩ := hibs e (List.mem_cons_self _ _) hed
        have hmerge := getMergedDirEntry_val hia hib
        have hgetd2 : tr[i]?.getD noEntry = ex := by rw [hex]; rfl
        have hstep : mergeLoopB (e :: rest) tr nc =
            mergeLoopB rest (tr.set i (mergedVal ex ia ib)) nc := by
          simp [mergeLoopB, hl, hgetd2, hexd, hed, hmerge]
        rw [hstep]
        have hnames := names_set_eq hex (show (mergedVal ex ia ib).name = ex.name from rfl)
        refine ih _ _ (ncInv_set hinv hnames) (by rw [hnames]; exact hnd)
          (fun x hx hxd => ?_) (fun x hx => hibs x (List.mem_cons_of_mem _ hx))
        rcases mem_set_sub x hx with rfl | hx2
        · exact ⟨_, rfl⟩
        · exact hitr x hx2 hxd
      · have hgetd2 : tr[i]?.getD noEntry = ex := by rw [hex]; rfl
        have hskip : ex.isDir = false ∨ e.isDir = false := by
          cases hx : ex.isDir <;> cases hy : e.isDir <;> simp_all
        have hstep : mergeLoopB (e :: rest) tr nc = mergeLoopB rest tr nc := by
          rcases hskip with h | h <;> simp [mergeLoopB, hl, hgetd2, h]
        rw [hstep]
        exact ih tr nc hinv hnd hitr (fun x hx => hibs x (List.mem_cons_of_mem _ hx))

/-- The names of the B loop result: unique, and exactly the union of the
accumulated names and B's names. -/
theorem mergeLoopB_names :
    ∀ (bs tr : List DirEntry) (nc : List (String × Nat)) (res : List DirEntry),
      ncInv tr nc → (namesOf tr).Nodup →
      mergeLoopB bs tr nc = .ok res →
      (namesOf res).Nodup ∧
        (∀ n, n ∈ namesOf res ↔ n ∈ namesOf tr ∨ n ∈ namesOf bs) := by
  intro bs
  induction bs with
  | nil =>
    intro tr nc res hinv hnd hres
    cases hres
    exact ⟨hnd, fun n => by simp [namesOf]⟩
  | cons e rest ih =>
    intro tr nc res hinv hnd hres
    cases hl : List.lookup e.name nc with
    | none =>
      rw [show mergeLoopB (e :: rest) tr nc =
          mergeLoopB rest (tr ++ [e]) (nc ++ [(e.name, tr.length)]) by
        simp [mergeLoopB, hl]] at hres
      obtain ⟨h1, h2⟩ := ih _ _ res (ncInv_append hinv e)
        (nodup_append_singleton hnd (lookup_none_not_mem hinv hl)) hres
      refine ⟨h1, fun n => ?_⟩
      rw [h2 n, namesOf_append]
      simp only [namesOf, List.map_cons, List.mem_append, List.mem_singleton,
        List.mem_cons]
      tauto
    | some i =>
      obtain ⟨ex, hex, hexname, hgetd, hlen⟩ := lookup_conflict hinv hl
      have hmem : e.name ∈ namesOf tr := by
        rw [← hexname]
        exact List.getElem?_mem (names_getElem? hex)
      by_cases hdir : (ex.isDir && e.isDir) = true
      · obtain ⟨hexd, hed⟩ := Bool.and_eq_true_iff.mp hdir
        have hgetd2 : tr[i]?.getD noEntry = ex := by rw [hex]; rfl
        cases hm : getMergedDirEntry ex e with
        | error err =>
          rw [show mergeLoopB (e :: rest) tr nc = .error
              (wrapErr ("Failed getting merged DirEntry for " ++ e.name ++ ": ") err) by
            simp [mergeLoopB, hl, hgetd2, hexd, hed, hm]] at hres
          cases hres
        | ok me =>
          obtain ⟨ia, ib, hia, hib, rfl⟩ := getMergedDirEntry_ok.mp hm
          rw [show mergeLoopB (e :: rest) tr nc =
              mergeLoopB rest (tr.set i (mergedVal ex ia ib)) nc by
            simp [mergeLoopB, hl, hgetd2, hexd, hed, hm]] at hres
          have hnames := names_set_eq hex
            (show (mergedVal ex ia ib).name = ex.name from rfl)
          obtain ⟨h1, h2⟩ := ih _ _ res (ncInv_set hinv hnames)
            (by rw [hnames]; exact hnd) hres
          refine ⟨h1, fun n => ?_⟩
          rw [h2 n, hnames]
          simp only [namesOf, List.map_cons, List.mem_cons]
          constructor
          · rintro (h | h)
            · exact Or.inl h
            · exact Or.inr (Or.inr h)
          · rintro (h | h | h)
            · exact Or.inl h
            · subst h
              exact Or.inl hmem
            · exact Or.inr h
      · have hgetd2 : tr[i]?.getD noEntry = ex := by rw [hex]; rfl
        have hskip : ex.isDir = false ∨ e.isDir = false := by
          cases hx : ex.isDir <;> cases hy : e.isDir <;> simp_all
        rw [show mergeLoopB (e :: rest) tr nc = mergeLoopB rest tr nc by
          rcases hskip with h | h <;> simp [mergeLoopB, hl, hgetd2, h]] at hres
        obtain ⟨h1, h2⟩ := ih _ _ res hinv hnd hres
        refine ⟨h1, fun n => ?_⟩
        rw [h2 n]
        simp only [namesOf, List.map_cons, List.mem_cons]
        constructor
        · rintro (h | h)
          · exact Or.inl h
          · exact Or.inr (Or.inr h)
        · rintro (h | h | h)
          · exact Or.inl h
          · subst h
            exact Or.inl hmem
          · exact Or.inr h

/-- An accumulated entry whose name meets no directory/directory conflict in
B survives the B loop unchanged. -/
theorem mergeLoopB_keep :
    ∀ (bs tr : List DirEntry) (nc : List (String × Nat)) (res : List DirEntry)
      (e : DirEntry),
      ncInv tr nc → (namesOf tr).Nodup → e ∈ tr →
      (∀ b ∈ bs, b.name = e.name → ¬(e.isDir = true ∧ b.isDir = true)) →
      mergeLoopB bs tr nc = .ok res → e ∈ res := by
  intro bs
  induction bs with
  | nil =>
    intro tr nc res e _ _ he _ hres
    cases hres
    exact he
  | cons x rest ih =>
    intro tr nc res e hinv hnd he hcond hres
    cases hl : List.lookup x.name nc with
    | none =>
      rw [show mergeLoopB (x :: rest) tr nc =
          mergeLoopB rest (tr ++ [x]) (nc ++ [(x.name, tr.length)]) by
        simp [mergeLoopB, hl]] at hres
      exact ih _ _ res e (ncInv_append hinv x)
        (nodup_append_singleton hnd (lookup_none_not_mem hinv hl))
        (List.mem_append_left _ he)
        (fun b hb => hcond b (List.mem_cons_of_mem _ hb)) hres
    | some i =>
      obtain ⟨ex, hex, hexname, hgetd, hlen⟩ := lookup_conflict hinv hl
      have hgetd2 : tr[i]?.getD noEntry = ex := by rw [hex]; rfl
      by_cases hdir : (ex.isDir && x.isDir) = true
      · obtain ⟨hexd, hxd⟩ := Bool.and_eq_true_iff.mp hdir
        by_cases hxe : x.name = e.name
        · have hee : e = ex := by
            apply name_unique hnd hex he
            rw [hexname, hxe]
          exact absurd ⟨by rw [hee]; exact hexd, hxd⟩ (hcond x (List.mem_cons_self _ _) hxe)
        · cases hm : getMergedDirEntry ex x with
          | error err =>
            rw [show mergeLoopB (x :: rest) tr nc = .error
                (wrapErr ("Failed getting merged DirEntry for " ++ x.name ++ ": ") err) by
              simp [mergeLoopB, hl, hgetd2, hexd, hxd, hm]] at hres
            cases hres
          | ok me =>
            obtain ⟨ia, ib, hia, hib, rfl⟩ := getMergedDirEntry_ok.mp hm
            rw [show mergeLoopB (x :: rest) tr nc =
                mergeLoopB rest (tr.set i (mergedVal ex ia ib)) nc by
              simp [mergeLoopB, hl, hgetd2, hexd, hxd, hm]] at hres
            have hnames := names_set_eq hex
              (show (mergedVal ex ia ib).name = ex.name from rfl)
            obtain ⟨j, hj⟩ := List.mem_iff_getElem?.mp he
            have hji : j ≠ i := by
              intro hji
              subst hji
              rw [hex] at hj
              injection hj with hj2
              apply hxe
              rw [← hj2]
              exact hexname.symm
            exact ih _ _ res e (ncInv_set hinv hnames)
              (by rw [hnames]; exact hnd)
              (mem_set_of_ne hj hji)
              (fun b hb => hcond b (List.mem_cons_of_mem _ hb)) hres
      · have hskip : ex.isDir = false ∨ x.isDir = false := by
          cases h1 : ex.isDir <;> cases h2 : x.isDir <;> simp_all
        rw [show mergeLoopB (x :: rest) tr nc = mergeLoopB rest tr nc by
          rcases hskip with h | h <;> simp [mergeLoopB, hl, hgetd2, h]] at hres
        exact ih _ _ res e hinv hnd he
          (fun b hb => hcond b (List.mem_cons_of_mem _ hb)) hres

/-- A directory/directory conflict between an accumulated entry `a` and the
unique B entry `b` with the same name leaves the reconciled merged entry in
the B loop result. -/
theorem mergeLoopB_merge :
    ∀ (xs tr : List DirEntry) (nc : List (String × Nat)) (a b : DirEntry)
      (ys res : List DirEntry) (ia ib : FileInfo),
      ncInv tr nc → (namesOf tr).Nodup →
      a ∈ tr → a.isDir = true → b.isDir = true →
      a.info = .ok ia → b.info = .ok ib → b.name = a.name →
      (∀ x ∈ xs, x.name ≠ a.name) → (∀ y ∈ ys, y.name ≠ a.name) →
      mergeLoopB (xs ++ b :: ys) tr nc = .ok res →
      mergedVal a ia ib ∈ res := by
  intro xs
  induction xs with
  | nil =>
    intro tr nc a b ys res ia ib hinv hnd ha had hbd hia hib hbname _ hys hres
    obtain ⟨j, hj, hlook⟩ := lookup_of_mem hinv hnd ha
    have hlook2 : List.lookup b.name nc = some j := by rw [hbname]; exact hlook
    have hgetd2 : tr[j]?.getD noEntry = a := by rw [hj]; rfl
    have hmerge := getMergedDirEntry_val hia hib
    have hjlen : j < tr.length := by
      by_contra hc
      rw [List.getElem?_eq_none (by omega)] at hj
      cases hj
    rw [show mergeLoopB (([] : List DirEntry) ++ b :: ys) tr nc =
        mergeLoopB ys (tr.set j (mergedVal a ia ib)) nc by
      simp [mergeLoopB, hlook2, hgetd2, had, hbd, hmerge]] at hres
    have hnames := names_set_eq hj
      (show (mergedVal a ia ib).name = a.name from rfl)
    refine mergeLoopB_keep ys _ nc res (mergedVal a ia ib)
      (ncInv_set hinv hnames) (by rw [hnames]; exact hnd)
      (List.getElem?_mem (getElem?_set_self' hjlen _))
      (fun y hy heq => absurd heq (hys y hy)) hres
  | cons x xs2 ih =>
    intro tr nc a b ys res ia ib hinv hnd ha had hbd hia hib hbname hxs hys hres
    have hxa : x.name ≠ a.name := hxs x (List.mem_cons_self _ _)
    rw [List.cons_append] at hres
    cases hl : List.lookup x.name nc with
    | none =>
      rw [show mergeLoopB (x :: (xs2 ++ b :: ys)) tr nc =
          mergeLoopB (xs2 ++ b :: ys) (tr ++ [x]) (nc ++ [(x.name, tr.length)]) by
        simp [mergeLoopB, hl]] at hres
      exact ih _ _ a b ys res ia ib (ncInv_append hinv x)
        (nodup_append_singleton hnd (lookup_none_not_mem hinv hl))
        (List.mem_append_left _ ha) had hbd hia hib hbname
        (fun z hz => hxs z (List.mem_cons_of_mem _ hz)) hys hres
    | some i =>
      obtain ⟨ex, hex, hexname, hgetd, hlen⟩ := lookup_conflict hinv hl
      have hgetd2 : tr[i]?.getD noEntry = ex := by rw [hex]; rfl
      by_cases hdir : (ex.isDir && x.isDir) = true
      · obtain ⟨hexd, hxd⟩ := Bool.and_eq_true_iff.mp hdir
        cases hm : getMergedDirEntry ex x with
        | error err =>
          rw [show mergeLoopB (x :: (xs2 ++ b :: ys)) tr nc = .error
              (wrapErr ("Failed getting merged DirEntry for " ++ x.name ++ ": ") err) by
            simp [mergeLoopB, hl, hgetd2, hexd, hxd, hm]] at hres
          cases hres
        | ok me =>
          obtain ⟨ja, jb, hja, hjb, rfl⟩ := getMergedDirEntry_ok.mp hm
          rw [show mergeLoopB (x :: (xs2 ++ b :: ys)) tr nc =
              mergeLoopB (xs2 ++ b :: ys) (tr.set i (mergedVal ex ja jb)) nc by
            simp [mergeLoopB, hl, hgetd2, hexd, hxd, hm]] at hres
          have hnames := names_set_eq hex
            (show (mergedVal ex ja jb).name = ex.name from rfl)
          obtain ⟨j, hj⟩ := List.mem_iff_getElem?.mp ha
          have hji : j ≠ i := by
            intro hji
            subst hji
            rw [hex] at hj
            injection hj with hj2
            apply hxa
            rw [← hj2]
            exact hexname.symm
          exact ih _ _ a b ys res ia ib (ncInv_set hinv hnames)
            (by rw [hnames]; exact hnd)
            (mem_set_of_ne hj hji) had hbd hia hib hbname
            (fun z hz => hxs z (List.mem_cons_of_mem _ hz)) hys hres
      · have hskip : ex.isDir = false ∨ x.isDir = false := by
          cases h1 : ex.isDir with
          | false => exact Or.inl rfl
          | true =>
            cases h2 : x.isDir with
            | false => exact Or.inr rfl
            | true => exact absurd (by rw [h1, h2]; rfl) hdir
        rw [show mergeLoopB (x :: (xs2 ++ b :: ys)) tr nc =
            mergeLoopB (xs2 ++ b :: ys) tr nc by
          rcases hskip with h | h <;> simp [mergeLoopB, hl, hgetd2, h]] at hres
        exact ih _ _ a b ys res ia ib hinv hnd ha had hbd hia hib hbname
          (fun z hz => hxs z (List.mem_cons_of_mem _ hz)) hys hres

/-- Full specification of the entry-list merge under the DirectoryEntry
contract (unique names per listing, Info available for directories):
success, sortedness, unique names, union of names, A entries kept on
non-dir/dir conflicts, reconciled entries for dir/dir conflicts. -/
theorem mergeEntryLists_spec (as bs : List DirEntry)
    (hA : (namesOf as).Nodup) (hB : (namesOf bs).Nodup)
    (hinfoA : ∀ x ∈ as, x.isDir = true → ∃ fi, x.info = .ok fi)
    (hinfoB : ∀ x ∈ bs, x.isDir = true → ∃ fi, x.info = .ok fi) :
    ∃ E, mergeEntryLists as bs = .ok E
      ∧ E.Pairwise entryLEP
      ∧ (namesOf E).Nodup
      ∧ (∀ n, n ∈ namesOf E ↔ n ∈ namesOf as ∨ n ∈ namesOf bs)
      ∧ (∀ a ∈ as,
          (∀ b ∈ bs, b.name = a.name → ¬(a.isDir = true ∧ b.isDir = true)) →
          a ∈ E)
      ∧ (∀ a ∈ as, ∀ b ∈ bs, b.name = a.name → a.isDir = true →
          b.isDir = true → ∀ ia ib, a.info = .ok ia → b.info = .ok ib →
          mergedVal a ia ib ∈ E) := by
  obtain ⟨nc, hA_eq, hinv⟩ :=
    mergeLoopA_ok as [] [] ncInv_nil (by simpa [namesOf] using hA)
  rw [List.nil_append] at hA_eq hinv
  obtain ⟨res, hres⟩ := mergeLoopB_ok bs as nc hinv hA hinfoA hinfoB
  obtain ⟨hndres, hmemres⟩ := mergeLoopB_names bs as nc res hinv hA hres
  have hE : mergeEntryLists as bs = .ok (res.insertionSort entryLEP) := by
    simp [mergeEntryLists, hA_eq, hres]
  have hperm : List.Perm (res.insertionSort entryLEP) res :=
    List.perm_insertionSort entryLEP res
  have hnamesperm : List.Perm (namesOf (res.insertionSort entryLEP)) (namesOf res) :=
    hperm.map DirEntry.name
  refine ⟨res.insertionSort entryLEP, hE,
    List.sorted_insertionSort entryLEP res,
    hnamesperm.nodup_iff.mpr hndres,
    fun n => by rw [hnamesperm.mem_iff]; exact hmemres n,
    fun a ha hcond => ?_, fun a ha b hb hbname had hbd ia ib hia hib => ?_⟩
  · exact hperm.mem_iff.mpr (mergeLoopB_keep bs as nc res a hinv hA ha hcond hres)
  · obtain ⟨s, t, rfl⟩ := List.append_of_mem hb
    have hnames : namesOf (s ++ b :: t) = namesOf s ++ b.name :: namesOf t := by
      simp [namesOf]
    rw [hnames] at hB
    have hdisj := List.disjoint_of_nodup_append hB
    have hbs : b.name ∉ namesOf s := fun hmem => hdisj hmem (List.mem_cons_self _ _)
    have hbt : b.name ∉ namesOf t :=
      (List.nodup_cons.mp (List.nodup_append.mp hB).2.1).1
    refine hperm.mem_iff.mpr (mergeLoopB_merge s as nc a b t res ia ib hinv hA
      ha had hbd hia hib hbname (fun x hx hxa => ?_) (fun y hy hya => ?_) hres)
    · exact hbs (by rw [hbname, ← hxa]; exact mem_names_of_mem hx)
    · exact hbt (by rw [hbname, ← hya]; exact mem_names_of_mem hy)

/-- A duplicate name in A is an error of the merge, the asymmetric branch
of the duplicate check. -/
theorem mergeEntryLists_dupA (as bs : List DirEntry)
    (h : ¬ (namesOf as).Nodup) :
    ∃ n, n ∈ namesOf as ∧
      mergeEntryLists as bs =
        .error (plainErr ("Duplicate name in dir A: " ++ n)) := by
  obtain ⟨n, hn, herr⟩ :=
    mergeLoopA_err as [] [] ncInv_nil (by simp [namesOf]) (by simpa [namesOf] using h)
  exact ⟨n, hn, by simp [mergeEntryLists, herr]⟩

/- ### Claim C2 -/

/-- Claim C2: for every path P that is a directory in both A and B, with
each listing honouring the DirectoryEntry contract (unique names, Info
available), listing the handle Open(P) returns yields exactly the union of
the names listed by A and by B, sorted lexicographically with no duplicate
names; a name that is a directory in both produces the reconciled entry
with A's name, A's permission bits (mode) and the maximum of the two
modification times; a name conflict that is not directory/directory keeps
A's entry unchanged and discards B's. The handle itself stats as a
directory with A's mode and the maximum of the two top-level modification
times. -/
theorem claim_C2_merged_dir_listing (m : MergedFS) (path : String)
    (fA fB : FileData) (iA iB : FileInfo) (as bs : List DirEntry)
    (hv : validPath path = true)
    (hAo : m.A path = .ok fA) (hAs : fA.stat = .ok iA) (hAd : iA.isDir = true)
    (hBo : m.B path = .ok fB) (hBs : fB.stat = .ok iB) (hBd : iB.isDir = true)
    (hAe : fA.entries = some (.ok as)) (hBe : fB.entries = some (.ok bs))
    (hA : (namesOf as).Nodup) (hB : (namesOf bs).Nodup)
    (hinfoA : ∀ x ∈ as, x.isDir = true → ∃ fi, x.info = .ok fi)
    (hinfoB : ∀ x ∈ bs, x.isDir = true → ∃ fi, x.info = .ok fi) :
    ∃ E, (m.Open path).fst =
        .ok ⟨.ok ⟨baseName path, true, iA.mode, max iA.modTime iB.modTime, 0⟩,
          some (.ok E)⟩
      ∧ mergedReadDir E 0 (-1) = some (.ok E, E.length)
      ∧ (namesOf E).Pairwise (fun x y => strLE x.data y.data = true)
      ∧ (namesOf E).Nodup
      ∧ (∀ n, n ∈ namesOf E ↔ n ∈ namesOf as ∨ n ∈ namesOf bs)
      ∧ (∀ a ∈ as,
          (∀ b ∈ bs, b.name = a.name → ¬(a.isDir = true ∧ b.isDir = true)) →
          a ∈ E ∧ ∀ b ∈ bs, b.name = a.name → b ≠ a → b ∉ E)
      ∧ (∀ a ∈ as, ∀ b ∈ bs, b.name = a.name → a.isDir = true →
          b.isDir = true → ∀ ia ib, a.info = .ok ia → b.info = .ok ib →
          mergedVal a ia ib ∈ E) := by
  obtain ⟨E, hE, hpw, hnd, hunion, hkeep, hmerge⟩ :=
    mergeEntryLists_spec as bs hA hB hinfoA hinfoB
  have hopen : (m.Open path).fst =
      .ok ⟨.ok ⟨baseName path, true, iA.mode, max iA.modTime iB.modTime, 0⟩,
        some (.ok E)⟩ := by
    simp [MergedFS.Open, hv, hAo, hAs, hAd, hBo, hBs, hBd,
      newMergedDirectory, mergeDirEntries, hAe, hBe, hE]
  have hrd : mergedReadDir E 0 (-1) = some (.ok E, E.length) := by
    by_cases h : E.length ≤ 0
    · have : E = [] := List.length_eq_zero.mp (by omega)
      subst this
      rfl
    · simp only [mergedReadDir, if_neg h, if_pos (show (-1 : Int) ≤ 0 by norm_num)]
      rw [if_neg (show ¬ (E.length : Int) < (E.length : Int) by omega),
        if_neg (show ¬ (E.length : Int) < ((0 : Nat) : Int) by omega)]
      have h1 : ((E.length : Int) - ((0 : Nat) : Int)).toNat = E.length := by omega
      have h2 : ((E.length : Int)).toNat = E.length := by omega
      rw [h1, h2]
      simp
  refine ⟨E, hopen, hrd, ?_, hnd, hunion, fun a ha hcond => ?_, hmerge⟩
  · rw [namesOf]
    exact List.pairwise_map.mpr hpw
  · refine ⟨hkeep a ha hcond, fun b hb hbname hne hbE => ?_⟩
    obtain ⟨i, hi⟩ := List.mem_iff_getElem?.mp (hkeep a ha hcond)
    exact hne (name_unique hnd hi hbE hbname)

/-- Witness entry: a directory named sub in A's listing. -/
def wSubA : DirEntry := ⟨"sub", true, .ok ⟨"sub", true, 7, 5, 0⟩⟩

/-- Witness entry: a directory named sub in B's listing. -/
def wSubB : DirEntry := ⟨"sub", true, .ok ⟨"sub", true, 9, 11, 0⟩⟩

/-- Witness entry: a regular file only in A's listing. -/
def wCtxt : DirEntry := ⟨"c.txt", false, .ok ⟨"c.txt", false, 6, 1, 4⟩⟩

/-- Witness entry: a regular file only in B's listing. -/
def wZed : DirEntry := ⟨"z", false, .ok ⟨"z", false, 6, 2, 3⟩⟩

/-- Witness: the directory d as opened in A. -/
def wDirA : FileData := ⟨.ok ⟨"d", true, 493, 50, 0⟩, some (.ok [wSubA, wCtxt])⟩

/-- Witness: the directory d as opened in B. -/
def wDirB : FileData := ⟨.ok ⟨"d", true, 511, 60, 0⟩, some (.ok [wSubB, wZed])⟩

/-- Witness primary with one directory d. -/
def wDirFsA : FS := fun p => if p = "d" then .ok wDirA else .error wNF

/-- Witness secondary with one directory d. -/
def wDirFsB : FS := fun p => if p = "d" then .ok wDirB else .error wNF

theorem claim_C2_witness :
    ∃ E, ((NewMergedFS wDirFsA wDirFsB).Open "d").fst =
        .ok ⟨.ok ⟨baseName "d", true, 493, max 50 60, 0⟩, some (.ok E)⟩
      ∧ mergedReadDir E 0 (-1) = some (.ok E, E.length)
      ∧ (namesOf E).Pairwise (fun x y => strLE x.data y.data = true)
      ∧ (namesOf E).Nodup
      ∧ (∀ n, n ∈ namesOf E ↔
          n ∈ namesOf [wSubA, wCtxt] ∨ n ∈ namesOf [wSubB, wZed])
      ∧ (∀ a ∈ [wSubA, wCtxt],
          (∀ b ∈ [wSubB, wZed], b.name = a.name →
            ¬(a.isDir = true ∧ b.isDir = true)) →
          a ∈ E ∧ ∀ b ∈ [wSubB, wZed], b.name = a.name → b ≠ a → b ∉ E)
      ∧ (∀ a ∈ [wSubA, wCtxt], ∀ b ∈ [wSubB, wZed], b.name = a.name →
          a.isDir = true → b.isDir = true →
          ∀ ia ib, a.info = .ok ia → b.info = .ok ib →
          mergedVal a ia ib ∈ E) :=
  claim_C2_merged_dir_listing (NewMergedFS wDirFsA wDirFsB) "d" wDirA wDirB
    ⟨"d", true, 493, 50, 0⟩ ⟨"d", true, 511, 60, 0⟩ [wSubA, wCtxt] [wSubB, wZed]
    (by decide) rfl rfl rfl rfl rfl rfl rfl rfl (by decide) (by decide)
    (by intro x hx _
        rcases List.mem_cons.mp hx with rfl | hx2
        · exact ⟨_, rfl⟩
        · rcases List.mem_cons.mp hx2 with rfl | hx3
          · exact ⟨_, rfl⟩
          · cases hx3)
    (by intro x hx _
        rcases List.mem_cons.mp hx with rfl | hx2
        · exact ⟨_, rfl⟩
        · rcases List.mem_cons.mp hx2 with rfl | hx3
          · exact ⟨_, rfl⟩
          · cases hx3)

/- ### Claim C10 -/

/-- A duplicate name inside B's listing is silently skipped when the two
occurrences are not both directories: the merge result is as if the later
duplicate were never listed. -/
theorem mergeEntryLists_dupB_skip (as : List DirEntry) (b1 b2 : DirEntry)
    (hA : (namesOf as).Nodup) (hb1 : b1.name ∉ namesOf as)
    (hname : b2.name = b1.name) (hnd : ¬(b1.isDir = true ∧ b2.isDir = true)) :
    mergeEntryLists as [b1, b2] = mergeEntryLists as [b1] := by
  obtain ⟨nc, hA_eq, hinv⟩ :=
    mergeLoopA_ok as [] [] ncInv_nil (by simpa [namesOf] using hA)
  rw [List.nil_append] at hA_eq hinv
  have hl1 : List.lookup b1.name nc = none := by
    rw [hinv]
    exact idxOf?_eq_none.mpr hb1
  have hinv1 := ncInv_append hinv b1
  have hl2 : List.lookup b2.name (nc ++ [(b1.name, as.length)]) = some as.length := by
    rw [hinv1 b2.name, namesOf_append, idxOf?_append]
    rw [idxOf?_eq_none.mpr (show b2.name ∉ namesOf as by rw [hname]; exact hb1)]
    simp [hname, namesOf]
  have hgetd : (as ++ [b1])[as.length]?.getD noEntry = b1 := by
    rw [List.getElem?_concat_length]
    rfl
  have hskip : b1.isDir = false ∨ b2.isDir = false := by
    cases h1 : b1.isDir with
    | false => exact Or.inl rfl
    | true =>
      cases h2 : b2.isDir with
      | false => exact Or.inr rfl
      | true => exact absurd ⟨h1, h2⟩ hnd
  rcases hskip with h | h <;>
    simp [mergeEntryLists, hA_eq, mergeLoopB, hl1, hl2, hgetd, h]

/-- A duplicate name inside B's listing whose two occurrences are both
directories is silently reconciled into a merged entry, exactly as a
conflict with a primary entry would be. -/
theorem mergeEntryLists_dupB_merge (as : List DirEntry) (b1 b2 : DirEntry)
    (i1 i2 : FileInfo) (hA : (namesOf as).Nodup) (hb1 : b1.name ∉ namesOf as)
    (hname : b2.name = b1.name) (h1d : b1.isDir = true) (h2d : b2.isDir = true)
    (hi1 : b1.info = .ok i1) (hi2 : b2.info = .ok i2) :
    ∃ E, mergeEntryLists as [b1, b2] = .ok E ∧ mergedVal b1 i1 i2 ∈ E := by
  obtain ⟨nc, hA_eq, hinv⟩ :=
    mergeLoopA_ok as [] [] ncInv_nil (by simpa [namesOf] using hA)
  rw [List.nil_append] at hA_eq hinv
  have hl1 : List.lookup b1.name nc = none := by
    rw [hinv]
    exact idxOf?_eq_none.mpr hb1
  have hinv1 := ncInv_append hinv b1
  have hl2 : List.lookup b2.name (nc ++ [(b1.name, as.length)]) = some as.length := by
    rw [hinv1 b2.name, namesOf_append, idxOf?_append]
    rw [idxOf?_eq_none.mpr (show b2.name ∉ namesOf as by rw [hname]; exact hb1)]
    simp [hname, namesOf]
  have hgetd : (as ++ [b1])[as.length]?.getD noEntry = b1 := by
    rw [List.getElem?_concat_length]
    rfl
  have hmerge := getMergedDirEntry_val hi1 hi2
  have hlen : as.length < (as ++ [b1]).length := by simp
  have hres : mergeEntryLists as [b1, b2] =
      .ok (((as ++ [b1]).set as.length (mergedVal b1 i1 i2)).insertionSort entryLEP) := by
    simp [mergeEntryLists, hA_eq, mergeLoopB, hl1, hl2, hgetd, h1d, h2d, hmerge]
  refine ⟨_, hres, ?_⟩
  exact (List.perm_insertionSort entryLEP _).mem_iff.mpr
    (List.getElem?_mem (getElem?_set_self' hlen _))

/-- Claim C10: the duplicate-name check of the directory-entry merge is
asymmetric. A duplicate name within the primary listing raises the
internal-consistency error; a secondary listing containing duplicate names
never raises it — the merge succeeds for every B listing, and the later
duplicate from B is silently discarded when the two occurrences are not
both directories, or silently reconciled into a merged entry when they
are, exactly as if it conflicted with a primary entry. -/
theorem claim_C10_duplicate_check_asymmetry (as bs : List DirEntry)
    (b1 b2 : DirEntry) :
    (¬ (namesOf as).Nodup →
      ∃ n, n ∈ namesOf as ∧
        mergeEntryLists as bs =
          .error (plainErr ("Duplicate name in dir A: " ++ n)))
    ∧ ((namesOf as).Nodup →
        (∀ x ∈ as, x.isDir = true → ∃ fi, x.info = .ok fi) →
        (∀ x ∈ bs, x.isDir = true → ∃ fi, x.info = .ok fi) →
        ∃ E, mergeEntryLists as bs = .ok E)
    ∧ ((namesOf as).Nodup → b1.name ∉ namesOf as → b2.name = b1.name →
        ¬(b1.isDir = true ∧ b2.isDir = true) →
        mergeEntryLists as [b1, b2] = mergeEntryLists as [b1])
    ∧ ((namesOf as).Nodup → b1.name ∉ namesOf as → b2.name = b1.name →
        b1.isDir = true → b2.isDir = true → ∀ i1 i2, b1.info = .ok i1 →
        b2.info = .ok i2 →
        ∃ E, mergeEntryLists as [b1, b2] = .ok E ∧ mergedVal b1 i1 i2 ∈ E) := by
  refine ⟨fun h => mergeEntryLists_dupA as bs h, fun hA hiA hiB => ?_,
    fun hA hb1 hname hnd => mergeEntryLists_dupB_skip as b1 b2 hA hb1 hname hnd,
    fun hA hb1 hname h1d h2d i1 i2 hi1 hi2 =>
      mergeEntryLists_dupB_merge as b1 b2 i1 i2 hA hb1 hname h1d h2d hi1 hi2⟩
  obtain ⟨nc, hA_eq, hinv⟩ :=
    mergeLoopA_ok as [] [] ncInv_nil (by simpa [namesOf] using hA)
  rw [List.nil_append] at hA_eq hinv
  obtain ⟨res, hres⟩ := mergeLoopB_ok bs as nc hinv hA hiA hiB
  exact ⟨res.insertionSort entryLEP, by simp [mergeEntryLists, hA_eq, hres]⟩

/-- Witness entry: a regular file also named sub. -/
def wSubFile : DirEntry := ⟨"sub", false, .ok ⟨"sub", false, 6, 3, 2⟩⟩

/-- Witness entry: another directory named sub with different metadata. -/
def wSubB2 : DirEntry := ⟨"sub", true, .ok ⟨"sub", true, 10, 20, 0⟩⟩

theorem claim_C10_witness :
    (∃ n, n ∈ namesOf [wCtxt, wCtxt] ∧
      mergeEntryLists [wCtxt, wCtxt] [wSubB] =
        .error (plainErr ("Duplicate name in dir A: " ++ n)))
    ∧ (∃ E, mergeEntryLists [wCtxt] [wSubB, wSubB] = .ok E)
    ∧ mergeEntryLists [wCtxt] [wSubB, wSubFile] = mergeEntryLists [wCtxt] [wSubB]
    ∧ (∃ E, mergeEntryLists [wCtxt] [wSubB, wSubB2] = .ok E ∧
        mergedVal wSubB ⟨"sub", true, 9, 11, 0⟩ ⟨"sub", true, 10, 20, 0⟩ ∈ E) := by
  refine ⟨(claim_C10_duplicate_check_asymmetry [wCtxt, wCtxt] [wSubB] wSubB wSubB).1
      (by decide),
    (claim_C10_duplicate_check_asymmetry [wCtxt] [wSubB, wSubB] wSubB wSubB).2.1
      (by decide) ?_ ?_,
    (claim_C10_duplicate_check_asymmetry [wCtxt] [] wSubB wSubFile).2.2.1
      (by decide) (by decide) (by decide) (by decide),
    (claim_C10_duplicate_check_asymmetry [wCtxt] [] wSubB wSubB2).2.2.2
      (by decide) (by decide) (by decide) rfl rfl
      ⟨"sub", true, 9, 11, 0⟩ ⟨"sub", true, 10, 20, 0⟩ rfl rfl⟩
  · intro x hx _
    rcases List.mem_cons.mp hx with rfl | hx2
    · exact ⟨_, rfl⟩
    · cases hx2
  · intro x hx _
    rcases List.mem_cons.mp hx with rfl | hx2
    · exact ⟨_, rfl⟩
    · rcases List.mem_cons.mp hx2 with rfl | hx3
      · exact ⟨_, rfl⟩
      · cases hx3

/- ### Claim C3 -/

/-- Claim C3: listing/direct-access consistency. For a path P that is a
directory in both sources, the merged DirEntry built for P inside its
parent directory's merged listing (from A's and B's own listing entries
for P) carries exactly the metadata that Stat on the handle returned by
directly opening P yields, provided each underlying source is itself
consistent between its listing and its direct Stat (same mode and
modification time, and the entry name is the final path element). Both
sides show: isDirectory true, A's mode, max of the two modification
times, the base name of P, size 0. -/
theorem claim_C3_listing_direct_consistency (m : MergedFS) (path : String)
    (ea eb : DirEntry) (sa sb : FileInfo) (fa fb : FileData)
    (ia ib : FileInfo) (E : List DirEntry)
    (hv : validPath path = true)
    (hAo : m.A path = .ok fa) (hAs : fa.stat = .ok sa) (hAd : sa.isDir = true)
    (hBo : m.B path = .ok fb) (hBs : fb.stat = .ok sb) (hBd : sb.isDir = true)
    (hea : ea.info = .ok ia) (heb : eb.info = .ok ib)
    (hm : mergeDirEntries fa fb = .ok E)
    (hnameA : ea.name = baseName path)
    (hmodeA : ia.mode = sa.mode) (htimeA : ia.modTime = sa.modTime)
    (htimeB : ib.modTime = sb.modTime) :
    ∃ X : FileInfo,
      getMergedDirEntry ea eb = .ok ⟨baseName path, true, .ok X⟩
      ∧ (m.Open path).fst = .ok ⟨.ok X, some (.ok E)⟩
      ∧ X.isDir = true ∧ X.mode = sa.mode
      ∧ X.modTime = max sa.modTime sb.modTime
      ∧ X.name = baseName path ∧ X.size = 0 := by
  refine ⟨⟨baseName path, true, sa.mode, max sa.modTime sb.modTime, 0⟩,
    ?_, ?_, rfl, rfl, rfl, rfl, rfl⟩
  · rw [getMergedDirEntry_val hea heb]
    rw [mergedVal, hnameA, hmodeA, htimeA, htimeB]
  · simp [MergedFS.Open, hv, hAo, hAs, hAd, hBo, hBs, hBd,
      newMergedDirectory, hm]

/-- Witness parent-listing entries for d in A and B. -/
def wEntDA : DirEntry := ⟨"d", true, .ok ⟨"d", true, 493, 50, 0⟩⟩

/-- Witness parent-listing entries for d in A and B. -/
def wEntDB : DirEntry := ⟨"d", true, .ok ⟨"d", true, 511, 60, 0⟩⟩

theorem claim_C3_witness :
    ∃ X : FileInfo,
      getMergedDirEntry wEntDA wEntDB = .ok ⟨baseName "d", true, .ok X⟩
      ∧ ((NewMergedFS wDirFsA wDirFsB).Open "d").fst =
          .ok ⟨.ok X, some (.ok
            [wCtxt, ⟨"sub", true, .ok ⟨"sub", true, 7, 11, 0⟩⟩, wZed])⟩
      ∧ X.isDir = true ∧ X.mode = 493
      ∧ X.modTime = max 50 60
      ∧ X.name = baseName "d" ∧ X.size = 0 :=
  claim_C3_listing_direct_consistency (NewMergedFS wDirFsA wDirFsB) "d"
    wEntDA wEntDB ⟨"d", true, 493, 50, 0⟩ ⟨"d", true, 511, 60, 0⟩
    wDirA wDirB ⟨"d", true, 493, 50, 0⟩ ⟨"d", true, 511, 60, 0⟩
    [wCtxt, ⟨"sub", true, .ok ⟨"sub", true, 7, 11, 0⟩⟩, wZed]
    (by decide) rfl rfl rfl rfl rfl rfl rfl rfl (by decide) (by decide)
    rfl rfl rfl

/- ### Walking path prefixes: claims C4, C5, C6 -/

/-- The path q opens in A as a directory. -/
def dirInA (A : FS) (q : String) : Prop :=
  ∃ f i, A q = .ok f ∧ f.stat = .ok i ∧ i.isDir = true

/-- The successive prefix joins the loop computes from an accumulator and
the remaining components. -/
def accJoins : Option String → List String → List String
  | _, [] => []
  | acc, c :: rest => stepJoin acc c :: accJoins (some (stepJoin acc c)) rest

/-- All prefixes of a path, as validatePathPrefix enumerates them. -/
def pathPrefixes (path : String) : List String :=
  accJoins none (splitSlash path)

theorem contains_eq_decide (l : List String) (p : String) :
    l.contains p = decide (p ∈ l) := by
  simp [List.contains]

theorem cacheGet_eq_false_of_not_mem {m : MergedFS} {p : String}
    (h : p ∉ m.knownOKPrefixes) : cacheGet m p = false := by
  simp [cacheGet, contains_eq_decide, h]

theorem cacheAdd_A (m : MergedFS) (q : String) : (cacheAdd m q).A = m.A := by
  simp only [cacheAdd]
  split_ifs <;> rfl

theorem cacheAdd_B (m : MergedFS) (q : String) : (cacheAdd m q).B = m.B := by
  simp only [cacheAdd]
  split_ifs <;> rfl

theorem cacheAdd_flag (m : MergedFS) (q : String) :
    (cacheAdd m q).pathCachingEnabled = m.pathCachingEnabled := by
  simp only [cacheAdd]
  split_ifs <;> rfl

theorem cacheGet_cacheAdd_ne {m : MergedFS} {q p : String} (h : q ≠ p) :
    cacheGet (cacheAdd m q) p = cacheGet m p := by
  simp only [cacheGet, cacheAdd]
  split_ifs with h1 h2 <;> try rfl
  simp only [contains_eq_decide]
  have : p ∈ m.knownOKPrefixes ++ [q] ↔ p ∈ m.knownOKPrefixes := by
    simp [List.mem_append]
    intro hq
    exact absurd hq.symm h
  simp [this]

/-- The walk finds a non-directory prefix of the path in A, after a chain
of directories, and reports it wrapping fs.ErrNotExist: the shadowed case.
The full path must not be cached, and must differ from the directory
prefixes before the blocking one. -/
theorem validateLoop_file :
    ∀ (comps : List String) (m : MergedFS) (acc : Option String)
      (good : List String) (badp path : String) (rest : List String)
      (fb : FileData) (ibi : FileInfo),
      cacheGet m path = false →
      accJoins acc comps = good ++ badp :: rest →
      (∀ q ∈ good, dirInA m.A q) →
      path ∉ good →
      m.A badp = .ok fb → fb.stat = .ok ibi → ibi.isDir = false →
      (validateLoop m path acc comps).fst = some (errFileInA badp) := by
  intro comps
  induction comps with
  | nil =>
    intro m acc good badp path rest fb ibi _ hsplit _ _ _ _ _
    simp [accJoins] at hsplit
  | cons c r ih =>
    intro m acc good badp path rest fb ibi hget hsplit hgood hnp hbo hbs hbd
    simp only [accJoins] at hsplit
    cases good with
    | nil =>
      simp only [List.nil_append] at hsplit
      injection hsplit with h1 h2
      subst h1
      simp [validateLoop, hget, hbo, hbs, hbd]
    | cons g good2 =>
      simp only [List.cons_append] at hsplit
      injection hsplit with h1 h2
      subst h1
      obtain ⟨f, i, hf, hs, hd⟩ := hgood (stepJoin acc c) (List.mem_cons_self _ _)
      have hq : (validateLoop m path acc (c :: r)) =
          validateLoop (cacheAdd m (stepJoin acc c)) path (some (stepJoin acc c)) r := by
        simp [validateLoop, hget, hf, hs, hd]
      rw [hq]
      have hne : stepJoin acc c ≠ path := fun hcontra =>
        hnp (hcontra ▸ List.mem_cons_self _ _)
      refine ih _ _ good2 badp path rest fb ibi ?_ ?_ ?_ ?_ ?_ hbs hbd
      · rw [cacheGet_cacheAdd_ne hne]
        exact hget
      · exact h2
      · intro q hq2
        rw [cacheAdd_A]
        exact hgood q (List.mem_cons_of_mem _ hq2)
      · exact fun hmem => hnp (List.mem_cons_of_mem _ hmem)
      · rw [cacheAdd_A]
        exact hbo

/-- The walk reaches a prefix of the path that is absent from A after a
chain of directories: no shadowing, the loop reports success. No cache
condition is needed: a cache hit also reports success. -/
theorem validateLoop_notFound :
    ∀ (comps : List String) (m : MergedFS) (acc : Option String)
      (good : List String) (nf path : String) (rest : List String)
      (e : GoError),
      accJoins acc comps = good ++ nf :: rest →
      (∀ q ∈ good, dirInA m.A q) →
      m.A nf = .error e → isBadPathError e = true →
      (validateLoop m path acc comps).fst = none := by
  intro comps
  induction comps with
  | nil =>
    intro m acc good nf path rest e hsplit _ _ _
    simp [accJoins] at hsplit
  | cons c r ih =>
    intro m acc good nf path rest e hsplit hgood hnf hbad
    by_cases hget : cacheGet m path
    · simp [validateLoop, hget]
    · simp only [accJoins] at hsplit
      cases good with
      | nil =>
        simp only [List.nil_append] at hsplit
        injection hsplit with h1 h2
        subst h1
        simp [validateLoop, hget, hnf, hbad]
      | cons g good2 =>
        simp only [List.cons_append] at hsplit
        injection hsplit with h1 h2
        subst h1
        obtain ⟨f, i, hf, hs, hd⟩ := hgood (stepJoin acc c) (List.mem_cons_self _ _)
        have hq : (validateLoop m path acc (c :: r)) =
            validateLoop (cacheAdd m (stepJoin acc c)) path (some (stepJoin acc c)) r := by
          simp [validateLoop, hget, hf, hs, hd]
        rw [hq]
        refine ih _ _ good2 nf path rest e h2 ?_ ?_ hbad
        · intro q hq2
          rw [cacheAdd_A]
          exact hgood q (List.mem_cons_of_mem _ hq2)
        · rw [cacheAdd_A]
          exact hnf

/-- The walk hits a prefix whose Open in A fails outside the bad-path
class: the loop propagates a fatal error that nevertheless wraps
fs.ErrNotExist, as the source formats it with a %w of fs.ErrNotExist. -/
theorem validateLoop_fatalOpen :
    ∀ (comps : List String) (m : MergedFS) (acc : Option String)
      (good : List String) (badp path : String) (rest : List String)
      (efat : GoError),
      cacheGet m path = false →
      accJoins acc comps = good ++ badp :: rest →
      (∀ q ∈ good, dirInA m.A q) →
      path ∉ good →
      m.A badp = .error efat → isBadPathError efat = false →
      (validateLoop m path acc comps).fst = some (errOpenFatalA path efat) := by
  intro comps
  induction comps with
  | nil =>
    intro m acc good badp path rest efat _ hsplit _ _ _ _
    simp [accJoins] at hsplit
  | cons c r ih =>
    intro m acc good badp path rest efat hget hsplit hgood hnp hbo hfat
    simp only [accJoins] at hsplit
    cases good with
    | nil =>
      simp only [List.nil_append] at hsplit
      injection hsplit with h1 h2
      subst h1
      simp [validateLoop, hget, hbo, hfat]
    | cons g good2 =>
      simp only [List.cons_append] at hsplit
      injection hsplit with h1 h2
      subst h1
      obtain ⟨f, i, hf, hs, hd⟩ := hgood (stepJoin acc c) (List.mem_cons_self _ _)
      have hq : (validateLoop m path acc (c :: r)) =
          validateLoop (cacheAdd m (stepJoin acc c)) path (some (stepJoin acc c)) r := by
        simp [validateLoop, hget, hf, hs, hd]
      rw [hq]
      have hne : stepJoin acc c ≠ path := fun hcontra =>
        hnp (hcontra ▸ List.mem_cons_self _ _)
      refine ih _ _ good2 badp path rest efat ?_ h2 ?_ ?_ ?_ hfat
      · rw [cacheGet_cacheAdd_ne hne]
        exact hget
      · intro q hq2
        rw [cacheAdd_A]
        exact hgood q (List.mem_cons_of_mem _ hq2)
      · exact fun hmem => hnp (List.mem_cons_of_mem _ hmem)
      · rw [cacheAdd_A]
        exact hbo

/-- The walk hits a prefix that opens in A but whose Stat fails: the loop
propagates the stat error, which wraps nothing. -/
theorem validateLoop_statErr :
    ∀ (comps : List String) (m : MergedFS) (acc : Option String)
      (good : List String) (badp path : String) (rest : List String)
      (fb : FileData) (efat : GoError),
      cacheGet m path = false →
      accJoins acc comps = good ++ badp :: rest →
      (∀ q ∈ good, dirInA m.A q) →
      path ∉ good →
      m.A badp = .ok fb → fb.stat = .error efat →
      (validateLoop m path acc comps).fst = some (errStatA efat) := by
  intro comps
  induction comps with
  | nil =>
    intro m acc good badp path rest fb efat _ hsplit _ _ _ _
    simp [accJoins] at hsplit
  | cons c r ih =>
    intro m acc good badp path rest fb efat hget hsplit hgood hnp hbo hbs
    simp only [accJoins] at hsplit
    cases good with
    | nil =>
      simp only [List.nil_append] at hsplit
      injection hsplit with h1 h2
      subst h1
      simp [validateLoop, hget, hbo, hbs]
    | cons g good2 =>
      simp only [List.cons_append] at hsplit
      injection hsplit with h1 h2
      subst h1
      obtain ⟨f, i, hf, hs, hd⟩ := hgood (stepJoin acc c) (List.mem_cons_self _ _)
      have hq : (validateLoop m path acc (c :: r)) =
          validateLoop (cacheAdd m (stepJoin acc c)) path (some (stepJoin acc c)) r := by
        simp [validateLoop, hget, hf, hs, hd]
      rw [hq]
      have hne : stepJoin acc c ≠ path := fun hcontra =>
        hnp (hcontra ▸ List.mem_cons_self _ _)
      refine ih _ _ good2 badp path rest fb efat ?_ h2 ?_ ?_ ?_ hbs
      · rw [cacheGet_cacheAdd_ne hne]
        exact hget
      · intro q hq2
        rw [cacheAdd_A]
        exact hgood q (List.mem_cons_of_mem _ hq2)
      · exact fun hmem => hnp (List.mem_cons_of_mem _ hmem)
      · rw [cacheAdd_A]
        exact hbo

/-- Open, in the branch where A reports the path as absent, dispatches on
the shadow-prefix check. -/
theorem Open_validate_branch (m : MergedFS) (path : String) (e : GoError)
    (hv : validPath path = true) (hA : m.A path = .error e)
    (he : isBadPathError e = true) :
    m.Open path =
      match m.validatePathPrefix path with
      | (some ve, m2) => (.error (pathErr "open" path ve), m2)
      | (none, m2) => (m.B path, m2) := by
  simp [MergedFS.Open, hv, hA, he]

/- ### Claim C4 -/

/-- Claim C4: if some proper ancestor prefix of P is a non-directory in A
(all shorter prefixes being directories), A reports P itself as absent,
and P is not already cached, then Open(P) fails with an error wrapping
fs.ErrNotExist, whatever B contains: the whole subtree under the blocking
ancestor is masked. -/
theorem claim_C4_shadowed_subtree_not_found (m : MergedFS) (path : String)
    (good : List String) (badp : String) (rest : List String) (e : GoError)
    (fb : FileData) (ibi : FileInfo)
    (hv : validPath path = true)
    (hA : m.A path = .error e) (he : isBadPathError e = true)
    (hsplit : pathPrefixes path = good ++ badp :: rest)
    (hgood : ∀ q ∈ good, dirInA m.A q)
    (hproper : rest ≠ [])
    (hcache : path ∉ m.knownOKPrefixes)
    (hnp : path ∉ good)
    (hbo : m.A badp = .ok fb) (hbs : fb.stat = .ok ibi)
    (hbd : ibi.isDir = false) :
    (m.Open path).fst = .error (pathErr "open" path (errFileInA badp))
    ∧ (pathErr "open" path (errFileInA badp)).isNotExist = true := by
  have hget := cacheGet_eq_false_of_not_mem hcache
  have hval : (m.validatePathPrefix path).fst = some (errFileInA badp) := by
    rw [MergedFS.validatePathPrefix, if_neg (by simp [hget])]
    exact validateLoop_file _ _ _ good badp path rest fb ibi hget hsplit
      hgood hnp hbo hbs hbd
  rcases hvp : m.validatePathPrefix path with ⟨vo, m2⟩
  rw [hvp] at hval
  simp only at hval
  subst hval
  rw [Open_validate_branch m path e hv hA he, hvp]
  exact ⟨rfl, rfl⟩

theorem claim_C4_witness :
    ((NewMergedFS wFsA wFsB).Open "a/y").fst =
      .error (pathErr "open" "a/y" (errFileInA "a"))
    ∧ (pathErr "open" "a/y" (errFileInA "a")).isNotExist = true :=
  claim_C4_shadowed_subtree_not_found (NewMergedFS wFsA wFsB) "a/y"
    [] "a" ["a/y"] wNF wFileA ⟨"a", false, 420, 100, 2⟩
    (by decide) rfl rfl (by decide)
    (fun q hq => absurd hq (List.not_mem_nil q))
    (by decide) (by decide) (by decide) rfl rfl rfl

/- ### Claim C5 -/

/-- Claim C5: for a path absent from A (bad-path error) none of whose
prefixes is a non-directory in A (a chain of directories followed by an
absent prefix), Open returns exactly the result of B.Open, unmodified:
same handle on success, same error value on failure. -/
theorem claim_C5_transparent_delegation_to_B (m : MergedFS) (path : String)
    (good : List String) (nf : String) (rest : List String)
    (e enf : GoError)
    (hv : validPath path = true)
    (hA : m.A path = .error e) (he : isBadPathError e = true)
    (hsplit : pathPrefixes path = good ++ nf :: rest)
    (hgood : ∀ q ∈ good, dirInA m.A q)
    (hnf : m.A nf = .error enf) (henf : isBadPathError enf = true) :
    (m.Open path).fst = m.B path := by
  have hval : (m.validatePathPrefix path).fst = none := by
    rw [MergedFS.validatePathPrefix]
    split_ifs with h
    · rfl
    · exact validateLoop_notFound _ _ _ good nf path rest enf hsplit hgood hnf henf
  rcases hvp : m.validatePathPrefix path with ⟨vo, m2⟩
  rw [hvp] at hval
  simp only at hval
  subst hval
  rw [Open_validate_branch m path e hv hA he, hvp]

/-- Witness primary for C5: only the empty directory b. -/
def wDirOnlyA : FS := fun p =>
  if p = "b" then .ok ⟨.ok ⟨"b", true, 493, 50, 0⟩, some (.ok [])⟩
  else .error wNF

/-- Witness secondary for C5: the file b/x. -/
def wBxB : FS := fun p =>
  if p = "b/x" then .ok ⟨.ok ⟨"x", false, 420, 9, 7⟩, none⟩ else .error wNF

theorem claim_C5_witness :
    ((NewMergedFS wDirOnlyA wBxB).Open "b/x").fst = wBxB "b/x" :=
  claim_C5_transparent_delegation_to_B (NewMergedFS wDirOnlyA wBxB) "b/x"
    ["b"] "b/x" [] wNF wNF
    (by decide) rfl rfl (by decide)
    (fun q hq => by
      rcases List.mem_singleton.mp hq with rfl
      exact ⟨⟨.ok ⟨"b", true, 493, 50, 0⟩, some (.ok [])⟩,
        ⟨"b", true, 493, 50, 0⟩, rfl, rfl, rfl⟩)
    rfl rfl

/- ### Claim C6 -/

/-- Witness primary whose directory prefix d fails to open with a
non-bad-path error, while anything under it reports not-found. -/
def wFatalA : FS := fun p =>
  if p = "d" then .error ⟨false, false, "disk I/O error"⟩ else .error wNF

/-- Counterexample to claim C6 as stated: when the shadow-prefix check
hits an ancestor whose Open in A fails with an error outside the bad-path
class, the propagated error is wrapped with fs.ErrNotExist (the source
formats it as "%w: Error opening %s in A: %s" with fs.ErrNotExist), so the
result of Open does satisfy errors.Is(e, fs.ErrNotExist), contradicting
the claim that it does not. -/
theorem claim_C6_counterexample :
    ((NewMergedFS wFatalA wFsB).Open "d/x").fst =
      .error (pathErr "open" "d/x"
        (errOpenFatalA "d/x" ⟨false, false, "disk I/O error"⟩))
    ∧ (pathErr "open" "d/x"
        (errOpenFatalA "d/x" ⟨false, false, "disk I/O error"⟩)).isNotExist = true :=
  ⟨by decide, rfl⟩

/-- Claim C6, amended: in the shadow-prefix check, a non-bad-path failure
while opening or statting an ancestor prefix in A is propagated as an
error for every content of B (no fallback); a Stat failure yields an error
that does not wrap fs.ErrNotExist, while an Open failure yields one that
does. -/
theorem claim_C6_amended_fatal_propagation (m : MergedFS) (path : String)
    (good : List String) (badp : String) (rest : List String)
    (e efat : GoError) (notExistFlag : Bool)
    (hv : validPath path = true)
    (hA : m.A path = .error e) (he : isBadPathError e = true)
    (hsplit : pathPrefixes path = good ++ badp :: rest)
    (hgood : ∀ q ∈ good, dirInA m.A q)
    (hcache : path ∉ m.knownOKPrefixes)
    (hnp : path ∉ good)
    (hcase : (m.A badp = .error efat ∧ isBadPathError efat = false ∧
        notExistFlag = true)
      ∨ (∃ fb, m.A badp = .ok fb ∧ fb.stat = .error efat ∧
        notExistFlag = false)) :
    ∃ er, (m.Open path).fst = .error er ∧ er.isNotExist = notExistFlag := by
  have hget := cacheGet_eq_false_of_not_mem hcache
  rcases hcase with ⟨hbo, hfat, rfl⟩ | ⟨fb, hbo, hbs, rfl⟩
  · have hval : (m.validatePathPrefix path).fst =
        some (errOpenFatalA path efat) := by
      rw [MergedFS.validatePathPrefix, if_neg (by simp [hget])]
      exact validateLoop_fatalOpen _ _ _ good badp path rest efat hget hsplit
        hgood hnp hbo hfat
    rcases hvp : m.validatePathPrefix path with ⟨vo, m2⟩
    rw [hvp] at hval
    simp only at hval
    subst hval
    rw [Open_validate_branch m path e hv hA he, hvp]
    exact ⟨_, rfl, rfl⟩
  · have hval : (m.validatePathPrefix path).fst = some (errStatA efat) := by
      rw [MergedFS.validatePathPrefix, if_neg (by simp [hget])]
      exact validateLoop_statErr _ _ _ good badp path rest fb efat hget hsplit
        hgood hnp hbo hbs
    rcases hvp : m.validatePathPrefix path with ⟨vo, m2⟩
    rw [hvp] at hval
    simp only at hval
    subst hval
    rw [Open_validate_branch m path e hv hA he, hvp]
    exact ⟨_, rfl, rfl⟩

/-- Witness primary whose directory prefix d opens but fails to Stat. -/
def wStatFailA : FS := fun p =>
  if p = "d" then .ok ⟨.error ⟨false, false, "stat i/o"⟩, none⟩
  else .error wNF

theorem claim_C6_witness :
    ∃ er, ((NewMergedFS wStatFailA wFsB).Open "d/x").fst = .error er
      ∧ er.isNotExist = false :=
  claim_C6_amended_fatal_propagation (NewMergedFS wStatFailA wFsB) "d/x"
    [] "d" ["d/x"] wNF ⟨false, false, "stat i/o"⟩ false
    (by decide) rfl rfl (by decide)
    (fun q hq => absurd hq (List.not_mem_nil q))
    (by decide) (by decide)
    (Or.inr ⟨⟨.error ⟨false, false, "stat i/o"⟩, none⟩, rfl, rfl, rfl⟩)

/- ### Split/join facts used by the cache claims -/

theorem splitChars_ne_nil : ∀ l : List Char, splitChars l ≠ [] := by
  intro l
  induction l with
  | nil => simp [splitChars]
  | cons c rest ih =>
    by_cases hc : c = '/'
    · simp [splitChars, hc]
    · simp only [splitChars, hc, if_false]
      cases hr : splitChars rest with
      | nil => simp
      | cons g gs => simp

theorem splitChars_no_slash : ∀ (l : List Char) (g : List Char),
    g ∈ splitChars l → '/' ∉ g := by
  intro l
  induction l with
  | nil =>
    intro g hg
    simp [splitChars] at hg
    simp [hg]
  | cons c rest ih =>
    intro g hg
    by_cases hc : c = '/'
    · simp [splitChars, hc] at hg
      rcases hg with rfl | hg
      · simp
      · exact ih g hg
    · simp only [splitChars, hc, if_false] at hg
      cases hr : splitChars rest with
      | nil => exact absurd hr (splitChars_ne_nil rest)
      | cons g0 gs =>
        rw [hr] at hg
        rcases List.mem_cons.mp hg with rfl | hg2
        · intro hmem
          rcases List.mem_cons.mp hmem with hc2 | hmem2
          · exact hc hc2.symm
          · exact ih g0 (by rw [hr]; exact List.mem_cons_self _ _) hmem2
        · exact ih g (by rw [hr]; exact List.mem_cons_of_mem _ hg2)

theorem splitChars_no_slash_whole (xs : List Char) (h : '/' ∉ xs) :
    splitChars xs = [xs] := by
  induction xs with
  | nil => rfl
  | cons c rest ih =>
    have hc : c ≠ '/' := fun hcc => h (hcc ▸ List.mem_cons_self _ _)
    have hrest : '/' ∉ rest := fun hm => h (List.mem_cons_of_mem _ hm)
    simp only [splitChars, hc, if_false]
    rw [ih hrest]

theorem splitChars_append (xs ys : List Char) (h : '/' ∉ xs) :
    splitChars (xs ++ '/' :: ys) = xs :: splitChars ys := by
  induction xs with
  | nil => simp [splitChars]
  | cons c rest ih =>
    have hc : c ≠ '/' := fun hcc => h (hcc ▸ List.mem_cons_self _ _)
    have hrest : '/' ∉ rest := fun hm => h (List.mem_cons_of_mem _ hm)
    simp only [List.cons_append, splitChars, hc, if_false, List.append_eq]
    rw [ih hrest]

theorem joinChars_append (gs hs : List (List Char)) (hg : gs ≠ []) (hh : hs ≠ []) :
    joinChars (gs ++ hs) = joinChars gs ++ '/' :: joinChars hs := by
  induction gs with
  | nil => exact absurd rfl hg
  | cons g gs2 ih =>
    cases gs2 with
    | nil =>
      cases hs with
      | nil => exact absurd rfl hh
      | cons h0 hs2 => simp [joinChars]
    | cons g2 gs3 =>
      have step : joinChars ((g :: g2 :: gs3) ++ hs) =
          g ++ '/' :: joinChars ((g2 :: gs3) ++ hs) := by
        simp only [List.cons_append]
        rfl
      rw [step, ih (by simp)]
      simp [joinChars]

theorem splitChars_joinChars :
    ∀ gs : List (List Char), gs ≠ [] → (∀ g ∈ gs, '/' ∉ g) →
      splitChars (joinChars gs) = gs := by
  intro gs
  induction gs with
  | nil => intro h; exact absurd rfl h
  | cons g gs2 ih =>
    intro _ hsl
    cases gs2 with
    | nil =>
      simp only [joinChars]
      exact splitChars_no_slash_whole g (hsl g (List.mem_cons_self _ _))
    | cons g2 gs3 =>
      have hstep : joinChars (g :: g2 :: gs3) = g ++ '/' :: joinChars (g2 :: gs3) := rfl
      rw [hstep, splitChars_append g _ (hsl g (List.mem_cons_self _ _))]
      rw [ih (by simp) (fun x hx => hsl x (List.mem_cons_of_mem _ hx))]

theorem mk_data (s : String) : String.mk s.data = s := rfl

theorem splitSlash_no_slash (s : String) :
    ∀ c ∈ splitSlash s, '/' ∉ c.data := by
  intro c hc
  rw [splitSlash] at hc
  obtain ⟨g, hg, rfl⟩ := List.mem_map.mp hc
  exact splitChars_no_slash s.data g hg

theorem splitSlash_joinSlash (comps : List String) (hne : comps ≠ [])
    (hsl : ∀ s ∈ comps, '/' ∉ s.data) :
    splitSlash (joinSlash comps) = comps := by
  rw [splitSlash, joinSlash]
  have hdata : (String.mk (joinChars (comps.map String.data))).data =
      joinChars (comps.map String.data) := rfl
  rw [hdata]
  rw [splitChars_joinChars (comps.map String.data)
    (by simpa using hne)
    (fun g hg => by
      obtain ⟨s, hs, rfl⟩ := List.mem_map.mp hg
      exact hsl s hs)]
  rw [List.map_map]
  have hid : (String.mk ∘ String.data) = id := funext mk_data
  rw [hid, List.map_id]

theorem joinSlash_append_singleton (pre : List String) (c : String)
    (hne : pre ≠ []) : joinSlash (pre ++ [c]) = joinSlash pre ++ "/" ++ c := by
  rw [joinSlash, joinSlash]
  have h1 : (pre ++ [c]).map String.data = pre.map String.data ++ [c.data] := by
    simp
  rw [h1, joinChars_append (pre.map String.data) [c.data]
    (by simpa using hne) (by simp)]
  have h2 : joinChars [c.data] = c.data := rfl
  rw [h2]
  apply String.ext
  simp [String.data_append]

/-- The accumulator of the loop after consuming a list of components:
strings.Join of the consumed part (nothing before the first). -/
def accOf (pre : List String) : Option String :=
  match pre with
  | [] => none
  | _ :: _ => some (joinSlash pre)

theorem accOf_nonempty {pre : List String} (h : pre ≠ []) :
    accOf pre = some (joinSlash pre) := by
  cases pre with
  | nil => exact absurd rfl h
  | cons p ps => rfl

theorem stepJoin_accOf (pre : List String) (c : String) :
    stepJoin (accOf pre) c = joinSlash (pre ++ [c]) := by
  cases pre with
  | nil =>
    have : joinSlash [c] = c := by
      rw [joinSlash]
      cases c with
      | mk cdata => rfl
    simp [accOf, stepJoin, this]
  | cons p ps =>
    rw [accOf, stepJoin, joinSlash_append_singleton (p :: ps) c (by simp)]

/-- The accumulator after the loop has consumed a further list of
components. -/
def accAfter : Option String → List String → Option String
  | acc, [] => acc
  | acc, c :: rest => accAfter (some (stepJoin acc c)) rest

/- ### The pure prefix walk: the cache-free meaning of validatePathPrefix -/

/-- The prefix walk without any cache: the decision validateLoop makes on
each prefix, as a pure function of A. -/
def pureLoop (A : FS) (path : String) : Option String → List String → Option GoError
  | _, [] => none
  | acc, c :: rest =>
    let pfx := stepJoin acc c
    match A pfx with
    | .error e => if isBadPathError e then none else some (errOpenFatalA path e)
    | .ok f =>
      match f.stat with
      | .error e => some (errStatA e)
      | .ok info =>
        if !info.isDir then some (errFileInA pfx)
        else pureLoop A path (some pfx) rest

/-- The full cache-free validatePathPrefix verdict for a path. -/
def pureWalk (A : FS) (path : String) : Option GoError :=
  pureLoop A path none (splitSlash path)

/-- Every cached prefix still passes the cache-free walk on the current A:
the cache has no stale entries. -/
def cacheOK (A : FS) (cache : List String) : Prop :=
  ∀ q ∈ cache, pureWalk A q = none

/-- Walking past a consumed chain of directories. -/
theorem pureLoop_skip_dirs (A : FS) (path : String) :
    ∀ (comps1 comps2 : List String) (acc : Option String),
      (∀ q ∈ accJoins acc comps1, dirInA A q) →
      pureLoop A path acc (comps1 ++ comps2) =
        pureLoop A path (accAfter acc comps1) comps2 := by
  intro comps1
  induction comps1 with
  | nil => intro comps2 acc _; rfl
  | cons c rest ih =>
    intro comps2 acc hdirs
    obtain ⟨f, i, hf, hs, hd⟩ := hdirs (stepJoin acc c) (by
      simp [accJoins])
    have hstep : pureLoop A path acc ((c :: rest) ++ comps2) =
        pureLoop A path (some (stepJoin acc c)) (rest ++ comps2) := by
      simp [pureLoop, hf, hs, hd]
    rw [hstep, ih comps2 (some (stepJoin acc c)) (fun q hq =>
      hdirs q (by simp [accJoins]; exact Or.inr hq))]
    rfl

theorem accAfter_accOf :
    ∀ (comps pre : List String), accAfter (accOf pre) comps = accOf (pre ++ comps) := by
  intro comps
  induction comps with
  | nil => intro pre; simp [accAfter]
  | cons c r ih =>
    intro pre
    have h1 : accAfter (accOf pre) (c :: r) =
        accAfter (some (stepJoin (accOf pre) c)) r := rfl
    rw [h1, stepJoin_accOf pre c, ← accOf_nonempty (by simp : pre ++ [c] ≠ []), ih]
    simp

/-- The full walk equals the walk from the middle when everything consumed
so far is a directory in A. -/
theorem pureWalk_from_middle (A : FS) (path : String) (pre comps : List String)
    (hsplit : splitSlash path = pre ++ comps)
    (hdirs : ∀ q ∈ accJoins none pre, dirInA A q) :
    pureWalk A path = pureLoop A path (accOf pre) comps := by
  rw [pureWalk, hsplit, pureLoop_skip_dirs A path pre comps none hdirs]
  have : accAfter (accOf ([] : List String)) pre = accOf ([] ++ pre) :=
    accAfter_accOf pre []
  simpa [accOf] using this ▸ rfl

theorem accAfter_none (pre : List String) : accAfter none pre = accOf pre := by
  have h := accAfter_accOf pre []
  simpa [accOf] using h

theorem accJoins_append :
    ∀ (xs ys : List String) (acc : Option String),
      accJoins acc (xs ++ ys) = accJoins acc xs ++ accJoins (accAfter acc xs) ys := by
  intro xs
  induction xs with
  | nil => intro ys acc; rfl
  | cons c r ih =>
    intro ys acc
    simp only [List.cons_append, accJoins, accAfter, List.append_eq]
    rw [ih]

theorem cacheGet_mem {m : MergedFS} {p : String} (h : cacheGet m p = true) :
    p ∈ m.knownOKPrefixes := by
  simp [cacheGet, contains_eq_decide] at h
  exact h.2

theorem cacheOK_cacheAdd {A : FS} {m : MergedFS} {q : String}
    (h : cacheOK A m.knownOKPrefixes) (hq : pureWalk A q = none) :
    cacheOK A (cacheAdd m q).knownOKPrefixes := by
  intro p hp
  simp only [cacheAdd] at hp
  split_ifs at hp
  · exact h p hp
  · simp only [List.mem_append] at hp
    rcases hp with hp2 | hp2
    · exact h p hp2
    · rcases List.mem_singleton.mp hp2 with rfl
      exact hq
  · exact h p hp

/-- The cache-free verdict for a directory-chain prefix of the walked path
reduces to a one-component walk from the consumed position. -/
theorem pureWalk_prefix_aux (A : FS) (path : String) (pre : List String)
    (c : String) (rest : List String)
    (hs : splitSlash path = pre ++ c :: rest)
    (hdirs : ∀ q ∈ accJoins none pre, dirInA A q) :
    pureWalk A (stepJoin (accOf pre) c) =
      pureLoop A (stepJoin (accOf pre) c) (accOf pre) [c] := by
  have hq := stepJoin_accOf pre c
  have hslash : ∀ s ∈ pre ++ [c], '/' ∉ s.data := by
    intro s hsmem
    apply splitSlash_no_slash path
    rw [hs]
    rcases List.mem_append.mp hsmem with h | h
    · exact List.mem_append_left _ h
    · rcases List.mem_singleton.mp h with rfl
      exact List.mem_append_right _ (List.mem_cons_self _ _)
  have hsplit2 : splitSlash (stepJoin (accOf pre) c) = pre ++ [c] := by
    rw [hq]
    exact splitSlash_joinSlash _ (by simp) hslash
  rw [pureWalk, hsplit2, pureLoop_skip_dirs A _ pre [c] none hdirs, accAfter_none]

/-- The master invariant of the shadow-prefix loop: with caching on and no
stale cache entries, its verdict is the cache-free walk, the node keeps
its filesystems and flag, and every entry it adds to the cache is itself a
valid confirmed-OK path. -/
theorem validateLoop_pure :
    ∀ (comps pre : List String) (m : MergedFS) (path : String),
      m.pathCachingEnabled = true →
      cacheOK m.A m.knownOKPrefixes →
      splitSlash path = pre ++ comps →
      (∀ q ∈ accJoins none pre, dirInA m.A q) →
      (validateLoop m path (accOf pre) comps).fst =
          pureLoop m.A path (accOf pre) comps
        ∧ (validateLoop m path (accOf pre) comps).snd.A = m.A
        ∧ (validateLoop m path (accOf pre) comps).snd.B = m.B
        ∧ (validateLoop m path (accOf pre) comps).snd.pathCachingEnabled = true
        ∧ cacheOK m.A (validateLoop m path (accOf pre) comps).snd.knownOKPrefixes := by
  intro comps
  induction comps with
  | nil =>
    intro pre m path hflag hOK _ _
    exact ⟨rfl, rfl, rfl, hflag, hOK⟩
  | cons c r ih =>
    intro pre m path hflag hOK hsplit hdirs
    by_cases hget : cacheGet m path = true
    · have hstep : validateLoop m path (accOf pre) (c :: r) = (none, m) := by
        simp [validateLoop, hget]
      have hwalk : pureWalk m.A path = none := hOK path (cacheGet_mem hget)
      have hpure : pureLoop m.A path (accOf pre) (c :: r) = none := by
        rw [← pureWalk_from_middle m.A path pre (c :: r) hsplit hdirs]
        exact hwalk
      rw [hstep, hpure]
      exact ⟨rfl, rfl, rfl, hflag, hOK⟩
    · have hget2 : cacheGet m path = false := by
        cases h : cacheGet m path
        · rfl
        · exact absurd h hget
      cases hA : m.A (stepJoin (accOf pre) c) with
      | error e =>
        cases hbad : isBadPathError e with
        | true =>
          have hstep : validateLoop m path (accOf pre) (c :: r) =
              (none, cacheAdd (cacheAdd m (stepJoin (accOf pre) c)) path) := by
            simp [validateLoop, hget2, hA, hbad]
          have hpure : pureLoop m.A path (accOf pre) (c :: r) = none := by
            simp [pureLoop, hA, hbad]
          have hqOK : pureWalk m.A (stepJoin (accOf pre) c) = none := by
            rw [pureWalk_prefix_aux m.A path pre c r hsplit hdirs]
            simp [pureLoop, hA, hbad]
          have hpathOK : pureWalk m.A path = none := by
            rw [pureWalk_from_middle m.A path pre (c :: r) hsplit hdirs]
            exact hpure
          have hOK2 := cacheOK_cacheAdd hOK hqOK
          have hOK3 : cacheOK m.A
              (cacheAdd (cacheAdd m (stepJoin (accOf pre) c)) path).knownOKPrefixes :=
            cacheOK_cacheAdd hOK2 hpathOK
          rw [hstep, hpure]
          refine ⟨rfl, ?_, ?_, ?_, hOK3⟩
          · rw [cacheAdd_A, cacheAdd_A]
          · rw [cacheAdd_B, cacheAdd_B]
          · rw [cacheAdd_flag, cacheAdd_flag]
            exact hflag
        | false =>
          have hstep : validateLoop m path (accOf pre) (c :: r) =
              (some (errOpenFatalA path e), m) := by
            simp [validateLoop, hget2, hA, hbad]
          have hpure : pureLoop m.A path (accOf pre) (c :: r) =
              some (errOpenFatalA path e) := by
            simp [pureLoop, hA, hbad]
          rw [hstep, hpure]
          exact ⟨rfl, rfl, rfl, hflag, hOK⟩
      | ok f =>
        cases hfs : f.stat with
        | error e =>
          have hstep : validateLoop m path (accOf pre) (c :: r) =
              (some (errStatA e), m) := by
            simp [validateLoop, hget2, hA, hfs]
          have hpure : pureLoop m.A path (accOf pre) (c :: r) =
              some (errStatA e) := by
            simp [pureLoop, hA, hfs]
          rw [hstep, hpure]
          exact ⟨rfl, rfl, rfl, hflag, hOK⟩
        | ok info =>
          cases hdir : info.isDir with
          | false =>
            have hstep : validateLoop m path (accOf pre) (c :: r) =
                (some (errFileInA (stepJoin (accOf pre) c)), m) := by
              simp [validateLoop, hget2, hA, hfs, hdir]
            have hpure : pureLoop m.A path (accOf pre) (c :: r) =
                some (errFileInA (stepJoin (accOf pre) c)) := by
              simp [pureLoop, hA, hfs, hdir]
            rw [hstep, hpure]
            exact ⟨rfl, rfl, rfl, hflag, hOK⟩
          | true =>
            have hstep : validateLoop m path (accOf pre) (c :: r) =
                validateLoop (cacheAdd m (stepJoin (accOf pre) c)) path
                  (some (stepJoin (accOf pre) c)) r := by
              simp [validateLoop, hget2, hA, hfs, hdir]
            have hpurestep : pureLoop m.A path (accOf pre) (c :: r) =
                pureLoop m.A path (some (stepJoin (accOf pre) c)) r := by
              simp [pureLoop, hA, hfs, hdir]
            have hqOK : pureWalk m.A (stepJoin (accOf pre) c) = none := by
              rw [pureWalk_prefix_aux m.A path pre c r hsplit hdirs]
              simp [pureLoop, hA, hfs, hdir]
            have haccOf : accOf (pre ++ [c]) = some (stepJoin (accOf pre) c) := by
              rw [accOf_nonempty (by simp : pre ++ [c] ≠ []), stepJoin_accOf]
            have hsplit2 : splitSlash path = (pre ++ [c]) ++ r := by
              rw [hsplit]
              simp
            have hdirs2 : ∀ q ∈ accJoins none (pre ++ [c]),
                dirInA (cacheAdd m (stepJoin (accOf pre) c)).A q := by
              intro q hq2
              rw [cacheAdd_A]
              rw [accJoins_append pre [c] none, accAfter_none] at hq2
              rcases List.mem_append.mp hq2 with hq3 | hq3
              · exact hdirs q hq3
              · have : q = stepJoin (accOf pre) c := by
                  simpa [accJoins] using hq3
                subst this
                exact ⟨f, info, hA, hfs, hdir⟩
            have hOK2 : cacheOK (cacheAdd m (stepJoin (accOf pre) c)).A
                (cacheAdd m (stepJoin (accOf pre) c)).knownOKPrefixes := by
              rw [cacheAdd_A]
              exact cacheOK_cacheAdd hOK hqOK
            obtain ⟨ihfst, ihA, ihB, ihflag, ihOK⟩ :=
              ih (pre ++ [c]) (cacheAdd m (stepJoin (accOf pre) c)) path
                (by rw [cacheAdd_flag]; exact hflag) hOK2 hsplit2 hdirs2
            try rw [haccOf] at ihfst
            try rw [haccOf] at ihA
            try rw [haccOf] at ihB
            try rw [haccOf] at ihflag
            try rw [haccOf] at ihOK
            try rw [cacheAdd_A] at ihfst
            try rw [cacheAdd_A] at ihA
            try rw [cacheAdd_B] at ihB
            try rw [cacheAdd_A] at ihOK
            rw [hstep, hpurestep]
            exact ⟨ihfst, ihA, ihB, ihflag, ihOK⟩

theorem validatePathPrefix_pure (m : MergedFS) (path : String)
    (hflag : m.pathCachingEnabled = true)
    (hOK : cacheOK m.A m.knownOKPrefixes) :
    (m.validatePathPrefix path).fst = pureWalk m.A path
    ∧ (m.validatePathPrefix path).snd.A = m.A
    ∧ (m.validatePathPrefix path).snd.B = m.B
    ∧ (m.validatePathPrefix path).snd.pathCachingEnabled = true
    ∧ cacheOK m.A (m.validatePathPrefix path).snd.knownOKPrefixes := by
  rw [MergedFS.validatePathPrefix]
  by_cases hget : cacheGet m path = true
  · rw [if_pos hget]
    exact ⟨(hOK path (cacheGet_mem hget)).symm, rfl, rfl, hflag, hOK⟩
  · rw [if_neg hget]
    have h := validateLoop_pure (splitSlash path) [] m path hflag hOK
      (by simp) (by intro q hq; simp [accJoins] at hq)
    rw [show accOf ([] : List String) = none from rfl] at h
    exact h

theorem cacheAdd_disabled {m : MergedFS} (q : String)
    (hflag : m.pathCachingEnabled = false) : cacheAdd m q = m := by
  simp [cacheAdd, hflag]

theorem validateLoop_disabled :
    ∀ (comps : List String) (m : MergedFS) (path : String) (acc : Option String),
      m.pathCachingEnabled = false →
      validateLoop m path acc comps = (pureLoop m.A path acc comps, m) := by
  intro comps
  induction comps with
  | nil => intro m path acc _; rfl
  | cons c r ih =>
    intro m path acc hflag
    have hget : cacheGet m path = false := by simp [cacheGet, hflag]
    cases hA : m.A (stepJoin acc c) with
    | error e =>
      cases hbad : isBadPathError e with
      | true =>
        rw [show validateLoop m path acc (c :: r) =
            (none, cacheAdd (cacheAdd m (stepJoin acc c)) path) by
          simp [validateLoop, hget, hA, hbad]]
        rw [cacheAdd_disabled _ hflag, cacheAdd_disabled _ hflag]
        simp [pureLoop, hA, hbad]
      | false =>
        rw [show validateLoop m path acc (c :: r) =
            (some (errOpenFatalA path e), m) by
          simp [validateLoop, hget, hA, hbad]]
        simp [pureLoop, hA, hbad]
    | ok f =>
      cases hfs : f.stat with
      | error e =>
        rw [show validateLoop m path acc (c :: r) = (some (errStatA e), m) by
          simp [validateLoop, hget, hA, hfs]]
        simp [pureLoop, hA, hfs]
      | ok info =>
        cases hdir : info.isDir with
        | false =>
          rw [show validateLoop m path acc (c :: r) =
              (some (errFileInA (stepJoin acc c)), m) by
            simp [validateLoop, hget, hA, hfs, hdir]]
          simp [pureLoop, hA, hfs, hdir]
        | true =>
          rw [show validateLoop m path acc (c :: r) =
              validateLoop (cacheAdd m (stepJoin acc c)) path
                (some (stepJoin acc c)) r by
            simp [validateLoop, hget, hA, hfs, hdir]]
          rw [cacheAdd_disabled _ hflag, ih m path (some (stepJoin acc c)) hflag]
          simp [pureLoop, hA, hfs, hdir]

theorem validatePathPrefix_disabled (m : MergedFS) (path : String)
    (hflag : m.pathCachingEnabled = false) :
    m.validatePathPrefix path = (pureWalk m.A path, m) := by
  rw [MergedFS.validatePathPrefix]
  have hget : cacheGet m path = false := by simp [cacheGet, hflag]
  rw [if_neg (by simp [hget])]
  exact validateLoop_disabled (splitSlash path) m path none hflag

/-- The state Open leaves behind is either the node unchanged or the node
the shadow-prefix check produced. -/
theorem Open_snd_cases (m : MergedFS) (path : String) :
    (m.Open path).snd = m ∨ (m.Open path).snd = (m.validatePathPrefix path).snd := by
  by_cases hv : validPath path
  · cases hA : m.A path with
    | ok fA =>
      cases hfs : fA.stat with
      | error e => exact Or.inl (by simp [MergedFS.Open, hv, hA, hfs])
      | ok i =>
        cases hd : i.isDir with
        | false => exact Or.inl (by simp [MergedFS.Open, hv, hA, hfs, hd])
        | true =>
          cases hB : m.B path with
          | error e =>
            cases hbad : isBadPathError e with
            | true => exact Or.inl (by simp [MergedFS.Open, hv, hA, hfs, hd, hB, hbad])
            | false => exact Or.inl (by simp [MergedFS.Open, hv, hA, hfs, hd, hB, hbad])
          | ok fB =>
            cases hfsB : fB.stat with
            | error e =>
              exact Or.inl (by simp [MergedFS.Open, hv, hA, hfs, hd, hB, hfsB])
            | ok iB =>
              cases hdB : iB.isDir with
              | false =>
                exact Or.inl (by simp [MergedFS.Open, hv, hA, hfs, hd, hB, hfsB, hdB])
              | true =>
                exact Or.inl (by simp [MergedFS.Open, hv, hA, hfs, hd, hB, hfsB, hdB])
    | error e =>
      cases hbad : isBadPathError e with
      | false => exact Or.inl (by simp [MergedFS.Open, hv, hA, hbad])
      | true =>
        rcases hvp : m.validatePathPrefix path with ⟨vo, m2⟩
        cases vo with
        | some ve =>
          refine Or.inr ?_
          simp [MergedFS.Open, hv, hA, hbad, hvp]
        | none =>
          refine Or.inr ?_
          simp [MergedFS.Open, hv, hA, hbad, hvp]
  · exact Or.inl (by simp [MergedFS.Open, hv])

/-- Two nodes over the same filesystems whose shadow-prefix checks agree
give the same Open result. -/
theorem Open_fst_eq_of (m1 m2 : MergedFS) (path : String)
    (hA : m1.A = m2.A) (hB : m1.B = m2.B)
    (hval : (m1.validatePathPrefix path).fst = (m2.validatePathPrefix path).fst) :
    (m1.Open path).fst = (m2.Open path).fst := by
  by_cases hv : validPath path
  · cases hA2 : m2.A path with
    | ok fA =>
      have hA1 : m1.A path = .ok fA := by rw [hA]; exact hA2
      cases hfs : fA.stat with
      | error e => simp [MergedFS.Open, hv, hA1, hA2, hfs]
      | ok i =>
        cases hd : i.isDir with
        | false => simp [MergedFS.Open, hv, hA1, hA2, hfs, hd]
        | true =>
          cases hB2 : m2.B path with
          | error e =>
            have hB1 : m1.B path = .error e := by rw [hB]; exact hB2
            cases hbad : isBadPathError e with
            | true => simp [MergedFS.Open, hv, hA1, hA2, hfs, hd, hB1, hB2, hbad]
            | false => simp [MergedFS.Open, hv, hA1, hA2, hfs, hd, hB1, hB2, hbad]
          | ok fB =>
            have hB1 : m1.B path = .ok fB := by rw [hB]; exact hB2
            cases hfsB : fB.stat with
            | error e => simp [MergedFS.Open, hv, hA1, hA2, hfs, hd, hB1, hB2, hfsB]
            | ok iB =>
              cases hdB : iB.isDir with
              | false =>
                simp [MergedFS.Open, hv, hA1, hA2, hfs, hd, hB1, hB2, hfsB, hdB]
              | true =>
                simp [MergedFS.Open, hv, hA1, hA2, hfs, hd, hB1, hB2, hfsB, hdB]
    | error e =>
      have hA1 : m1.A path = .error e := by rw [hA]; exact hA2
      cases hbad : isBadPathError e with
      | false => simp [MergedFS.Open, hv, hA1, hA2, hbad]
      | true =>
        rcases h1 : m1.validatePathPrefix path with ⟨v1, n1⟩
        rcases h2 : m2.validatePathPrefix path with ⟨v2, n2⟩
        rw [h1, h2] at hval
        simp only at hval
        subst hval
        cases v1 with
        | some ve => simp [MergedFS.Open, hv, hA1, hA2, hbad, h1, h2]
        | none => simp [MergedFS.Open, hv, hA1, hA2, hbad, h1, h2, hB]
  · simp [MergedFS.Open, hv]

theorem Open_preserves (m : MergedFS) (path : String)
    (hflag : m.pathCachingEnabled = true)
    (hOK : cacheOK m.A m.knownOKPrefixes) :
    (m.Open path).snd.A = m.A ∧ (m.Open path).snd.B = m.B
    ∧ (m.Open path).snd.pathCachingEnabled = true
    ∧ cacheOK m.A (m.Open path).snd.knownOKPrefixes := by
  rcases Open_snd_cases m path with h | h
  · rw [h]
    exact ⟨rfl, rfl, hflag, hOK⟩
  · rw [h]
    obtain ⟨_, h2, h3, h4, h5⟩ := validatePathPrefix_pure m path hflag hOK
    exact ⟨h2, h3, h4, h5⟩

theorem Open_disabled_state (m : MergedFS) (path : String)
    (hflag : m.pathCachingEnabled = false) : (m.Open path).snd = m := by
  rcases Open_snd_cases m path with h | h
  · exact h
  · rw [h, validatePathPrefix_disabled m path hflag]

/-- A sequence of Open calls, threading the node state. -/
def openSeq (m : MergedFS) : List String → MergedFS
  | [] => m
  | p :: ps => openSeq (m.Open p).snd ps

theorem openSeq_invariant :
    ∀ (prior : List String) (m : MergedFS),
      m.pathCachingEnabled = true → cacheOK m.A m.knownOKPrefixes →
      (openSeq m prior).A = m.A ∧ (openSeq m prior).B = m.B
      ∧ (openSeq m prior).pathCachingEnabled = true
      ∧ cacheOK m.A (openSeq m prior).knownOKPrefixes := by
  intro prior
  induction prior with
  | nil => exact fun m hflag hOK => ⟨rfl, rfl, hflag, hOK⟩
  | cons p ps ih =>
    intro m hflag hOK
    obtain ⟨hA, hB, hflag2, hOK2⟩ := Open_preserves m p hflag hOK
    obtain ⟨ihA, ihB, ihflag, ihOK⟩ := ih (m.Open p).snd hflag2 (by rw [hA]; exact hOK2)
    refine ⟨?_, ?_, ihflag, ?_⟩
    · rw [show openSeq m (p :: ps) = openSeq (m.Open p).snd ps from rfl, ihA, hA]
    · rw [show openSeq m (p :: ps) = openSeq (m.Open p).snd ps from rfl, ihB, hB]
    · rw [show openSeq m (p :: ps) = openSeq (m.Open p).snd ps from rfl]
      rw [hA] at ihOK
      exact ihOK

theorem openSeq_disabled :
    ∀ (prior : List String) (m : MergedFS),
      m.pathCachingEnabled = false → openSeq m prior = m := by
  intro prior
  induction prior with
  | nil => exact fun m _ => rfl
  | cons p ps ih =>
    intro m hflag
    rw [show openSeq m (p :: ps) = openSeq (m.Open p).snd ps from rfl,
      Open_disabled_state m p hflag]
    exact ih m hflag

/- ### Claim C7 -/

/-- Claim C7: the result of Open never depends on whether path-prefix
caching is enabled. For every pair of filesystems, every sequence of prior
Open calls and every path, running the sequence on a fresh node with
caching on and then opening the path gives the same result as doing so
with caching disabled from the start; and disabling caching immediately
clears all cached prefixes of the node. The UsePathCaching toggle is
modelled from the spec (its implementation is not under src/); the Open
and validatePathPrefix algorithms are the source's. -/
theorem claim_C7_caching_toggle_invisible (A B : FS) (prior : List String)
    (path : String) (m : MergedFS) :
    ((openSeq (NewMergedFS A B) prior).Open path).fst =
      ((openSeq ((NewMergedFS A B).UsePathCaching false) prior).Open path).fst
    ∧ (m.UsePathCaching false).knownOKPrefixes = [] := by
  constructor
  · have hdflag : ((NewMergedFS A B).UsePathCaching false).pathCachingEnabled = false :=
      rfl
    rw [openSeq_disabled prior _ hdflag]
    obtain ⟨hA, hB, hflag, hOK⟩ := openSeq_invariant prior (NewMergedFS A B) rfl
      (fun q hq => absurd hq (List.not_mem_nil q))
    apply Open_fst_eq_of
    · rw [hA]
      rfl
    · rw [hB]
      rfl
    · obtain ⟨h1, _, _, _, _⟩ := validatePathPrefix_pure
        (openSeq (NewMergedFS A B) prior) path hflag (by rw [hA]; exact hOK)
      rw [h1, validatePathPrefix_disabled ((NewMergedFS A B).UsePathCaching false)
        path rfl]
      rw [hA]
      rfl
  · rfl

/- ### Claim C8 -/

/-- The secondary used in the staleness scenario: only the file b/x. -/
def wA2file : FS := fun p =>
  if p = "b" then .ok ⟨.ok ⟨"b", false, 420, 70, 1⟩, none⟩ else .error wNF

/-- Counterexample to claim C8 as stated: warm the cache of a node over a
primary where b is a directory by opening b/x, then change the primary so
that b is a regular file. The node with the stale cache still returns B's
file for b/x, while a freshly constructed node over the same current
sources fails NotFound: Open does not always behave as on a fresh node
when the primary changes between calls. -/
theorem claim_C8_counterexample :
    (MergedFS.Open
        { (MergedFS.Open (NewMergedFS wDirOnlyA wBxB) "b/x").snd with A := wA2file }
        "b/x").fst
      = .ok ⟨.ok ⟨"x", false, 420, 9, 7⟩, none⟩
    ∧ ((NewMergedFS wA2file wBxB).Open "b/x").fst
      = .error (pathErr "open" "b/x" (errFileInA "b")) :=
  ⟨by decide, by decide⟩

/-- Claim C8, amended: Open(P) on a node equals Open(P) on a freshly
constructed node over the current sources whenever the node's cache has no
stale entries for the current primary, that is, every cached prefix still
passes the cache-free prefix walk (in particular on a fresh node, after
any sequence of Opens with unchanged sources, or with caching disabled).
A stale confirmed-OK entry for the path itself can instead make Open
return B's content (see the counterexample). -/
theorem claim_C8_amended_fresh_equivalence (m : MergedFS) (path : String)
    (hOK : cacheOK m.A m.knownOKPrefixes) :
    (m.Open path).fst = ((NewMergedFS m.A m.B).Open path).fst := by
  apply Open_fst_eq_of m (NewMergedFS m.A m.B) path rfl rfl
  have hfresh := validatePathPrefix_pure (NewMergedFS m.A m.B) path rfl
    (fun q hq => absurd hq (List.not_mem_nil q))
  cases hflag : m.pathCachingEnabled with
  | true =>
    obtain ⟨h1, _, _, _, _⟩ := validatePathPrefix_pure m path hflag hOK
    rw [h1, hfresh.1]
    rfl
  | false =>
    rw [validatePathPrefix_disabled m path hflag, hfresh.1]
    rfl

/-- A node over the C5 witness filesystems with a warmed cache whose
entries are still valid. -/
def wWarm : MergedFS := ⟨wDirOnlyA, wBxB, ["b", "b/x"], true⟩

theorem claim_C8_witness :
    (wWarm.Open "b/x").fst = ((NewMergedFS wDirOnlyA wBxB).Open "b/x").fst :=
  claim_C8_amended_fresh_equivalence wWarm "b/x"
    (by
      intro q hq
      rcases List.mem_cons.mp hq with rfl | hq2
      · decide
      · rcases List.mem_cons.mp hq2 with rfl | hq3
        · decide
        · cases hq3)
